import Mathlib

/-!
Verification of `src/main/commandServer/settingsValidator.ts`.

The validator works over already-parsed JSON payloads.  We embed the JavaScript
value universe as a mutually inductive type `JValue`/`JFields`: booleans,
numbers (JSON numbers; modelled as integers, which covers every value the
claims exercise), strings, `null`, `undefined` (the result of a missing
property lookup) and string-keyed objects.  Arrays and host objects do not
occur in the validated payloads and are out of the model.  JavaScript objects
never hold duplicate keys, so an object is represented by its ordered field
list and `for..in` enumeration is iteration over that list.
-/

mutual

inductive JValue : Type where
  | bool (b : Bool)
  | num (n : Int)
  | str (s : String)
  | null
  | undefined
  | obj (fields : JFields)
deriving Repr

inductive JFields : Type where
  | nil
  | cons (k : String) (v : JValue) (rest : JFields)
deriving Repr

end

/-- Property lookup `x[k]`: first matching field of an object, JavaScript
`undefined` otherwise.  (Reading a property of `null`/`undefined` throws in
JavaScript; the exception-aware walk below models that separately.) -/
def jGetF : JFields → String → JValue
  | .nil, _ => .undefined
  | .cons k' v rest, k => if k' = k then v else jGetF rest k

def jGet : JValue → String → JValue
  | .obj fs, k => jGetF fs k
  | _, _ => .undefined

/-- The test `typeof x === 'object'`, which is true for objects and for
`null`. -/
def typeofIsObject : JValue → Bool
  | .obj _ => true
  | .null => true
  | _ => false

/-- JavaScript `String(v)` / template-literal coercion for the values of the
model: primitives print their literal form, objects print
`[object Object]`. -/
def jsToString : JValue → String
  | .bool b => if b then "true" else "false"
  | .num n => toString n
  | .str s => s
  | .null => "null"
  | .undefined => "undefined"
  | .obj _ => "[object Object]"

/-- JSON string escaping used by `JSON.stringify` for quoted strings. -/
def jsonEscapeChar (c : Char) : String :=
  if c = '"' then "\\\""
  else if c = '\\' then "\\\\"
  else if c = '\n' then "\\n"
  else if c = '\r' then "\\r"
  else if c = '\t' then "\\t"
  else if c.toNat < 32 then "\\u00" ++
    (let hi := c.toNat / 16
     let lo := c.toNat % 16
     (String.singleton (Nat.digitChar hi)) ++ (String.singleton (Nat.digitChar lo)))
  else String.singleton c

def jsonEscape (s : String) : String :=
  String.join (s.data.map jsonEscapeChar)

def jsonQuote (s : String) : String := "\"" ++ jsonEscape s ++ "\""

mutual

/-- The value of `JSON.stringify(v)` for the values of the model.  Properties
whose value is `undefined` are omitted from objects.  (`JSON.stringify` of a
top-level `undefined` returns the value `undefined`, which prints as the text
"undefined" when interpolated; the walk only stringifies objects and `null`
at that call site.) -/
def jsonStringify : JValue → String
  | .bool b => if b then "true" else "false"
  | .num n => toString n
  | .str s => jsonQuote s
  | .null => "null"
  | .undefined => "undefined"
  | .obj fs => "\x7b" ++ String.intercalate "," (jsonFieldParts fs) ++ "\x7d"

def jsonFieldParts : JFields → List String
  | .nil => []
  | .cons _ .undefined rest => jsonFieldParts rest
  | .cons k v rest => (jsonQuote k ++ ":" ++ jsonStringify v) :: jsonFieldParts rest

end

/-- Strict equality `===` restricted to the comparisons the validator
performs: at every call site the desired value is a primitive, so two objects
are never compared against each other (object comparison in JavaScript is
reference equality; we return `false` there, matching the always-distinct
references of the current and the proposed tree). -/
def jStrictEq : JValue → JValue → Bool
  | .bool a, .bool b => a = b
  | .num a, .num b => a = b
  | .str a, .str b => a = b
  | .null, .null => true
  | .undefined, .undefined => true
  | _, _ => false

def jStrictNe (a b : JValue) : Bool := !(jStrictEq a b)

/-- Upper bound of a `checkNumber` instantiation: a finite number or
`Number.POSITIVE_INFINITY`. -/
inductive NumBound : Type where
  | fin (n : Int)
  | posInf
deriving Repr, DecidableEq

/-- The comparison `desiredValue > max` from `checkNumber`. -/
def gtBound (d : Int) : NumBound → Bool
  | .fin m => d > m
  | .posInf => false

def invalidSettingMessage (fqname : String) (desiredValue : JValue) : String :=
  "Invalid value for " ++ fqname ++ ": <" ++ jsToString desiredValue ++ ">"

def notSupported (fqname : String) : String :=
  "Changing field " ++ fqname ++ " via the API isn't supported."

/-- Validator `checkBoolean` (settingsValidator.ts, lines 138-146).  Errors
are threaded explicitly: the pair returned is (changed, updated error list). -/
def checkBoolean (currentValue desiredValue : JValue) (errors : List String)
    (fqname : String) : Bool × List String :=
  match desiredValue with
  | .bool _ => (jStrictNe currentValue desiredValue, errors)
  | _ => (false, errors ++ [invalidSettingMessage fqname desiredValue])

/-- Validator factory `checkNumber(min, max)` (lines 148-163). -/
def checkNumber (min : Int) (max : NumBound) (currentValue desiredValue : JValue)
    (errors : List String) (fqname : String) : Bool × List String :=
  match desiredValue with
  | .num d =>
    if d < min || gtBound d max then
      (false, errors ++ [invalidSettingMessage fqname desiredValue])
    else
      (jStrictNe currentValue desiredValue, errors)
  | _ => (false, errors ++ [invalidSettingMessage fqname desiredValue])

/-- Validator `checkString` (lines 165-173). -/
def checkString (currentValue desiredValue : JValue) (errors : List String)
    (fqname : String) : Bool × List String :=
  match desiredValue with
  | .str _ => (jStrictNe currentValue desiredValue, errors)
  | _ => (false, errors ++ [invalidSettingMessage fqname desiredValue])

/-- Validator `checkContainerEngine` (lines 175-185).  The membership test is
`['containerd', 'moby'].includes(desiredEngine)`, so only those two exact
strings are accepted. -/
def checkContainerEngine (currentValue desiredEngine : JValue)
    (errors : List String) (fqname : String) : Bool × List String :=
  match desiredEngine with
  | .str s =>
    if s = "containerd" || s = "moby" then
      (jStrictNe currentValue desiredEngine, errors)
    else
      (false, errors ++ ["Invalid value for " ++ fqname ++ ": <" ++ s ++
        ">; must be 'containerd', 'docker', or 'moby'"])
  | _ =>
    (false, errors ++ ["Invalid value for " ++ fqname ++ ": <" ++
      jsToString desiredEngine ++ ">; must be 'containerd', 'docker', or 'moby'"])

/-- Validator `checkKubernetesVersion` (lines 187-195); `k8sVersions` is the
externally supplied allow-list stored on the validator instance. -/
def checkKubernetesVersion (k8sVersions : List String)
    (currentValue desiredVersion : JValue) (errors : List String)
    (_fqname : String) : Bool × List String :=
  match desiredVersion with
  | .str s =>
    if k8sVersions.contains s then
      (jStrictNe currentValue desiredVersion, errors)
    else
      (false, errors ++ ["Kubernetes version \"" ++ s ++ "\" not found."])
  | _ =>
    (false, errors ++ ["Kubernetes version \"" ++ jsToString desiredVersion ++
      "\" not found."])

/-- Validator `checkUnchanged` (lines 201-207): pushes an error when the
value differs from the current one, and never reports a change. -/
def checkUnchanged (currentValue desiredValue : JValue) (errors : List String)
    (fqname : String) : Bool × List String :=
  if jStrictNe currentValue desiredValue then
    (false, errors ++ [notSupported fqname])
  else
    (false, errors)

/-!
The wildcard-map check.  `stableSerializeWSLIntegrations` is
`JSON.stringify(Object.entries(value).sort())`.  `Object.entries` lists the
own enumerable properties in insertion order (for a string, its indexed
characters; it throws a `TypeError` on `null`/`undefined`).  The default
`Array.prototype.sort` comparator converts each element to a string and
compares code units; for an entry `[k, v]` that string is `k + "," +
String(v)`.  Since ES2019 the sort is stable, so the result is the unique
stable ordering by that key, which `List.insertionSort` with a reflexive
total preorder computes. -/

def fieldsToList : JFields → List (String × JValue)
  | .nil => []
  | .cons k v rest => (k, v) :: fieldsToList rest

def entriesOf : JValue → Option (List (String × JValue))
  | .obj fs => some (fieldsToList fs)
  | .str s => some ((s.data.enum).map (fun p => (toString p.1, .str (String.singleton p.2))))
  | .bool _ => some []
  | .num _ => some []
  | .null => none
  | .undefined => none

/-- String conversion of the two-element array `[k, v]` used by the default
sort comparator: `String([k, v])` is `Array.prototype.join(",")`, which —
unlike `String(v)` — renders a `null` or `undefined` element as the empty
string. -/
def entryStr (e : String × JValue) : String :=
  e.1 ++ "," ++ (match e.2 with
    | .null => ""
    | .undefined => ""
    | v => jsToString v)

/-- The join renders a `null` element as the empty string, so a key ending
in a separator can tie with a key/value pair: `["a,y", null]` and
`["a", "y,"]` both join to `"a,y,"`. -/
theorem entryStr_join_null :
    entryStr ("a,y", JValue.null) = "a,y," ∧
    entryStr ("a", JValue.str "y,") = "a,y," := by decide

/-- Lexicographic code-unit comparison of character lists: the order induced
by the comparison `String(x) < String(y)` that the default sort comparator
performs (code-unit by code-unit, shorter prefix first). -/
def charListLe : List Char → List Char → Bool
  | [], _ => true
  | _ :: _, [] => false
  | a :: l1, b :: l2 =>
    if a.toNat < b.toNat then true
    else if b.toNat < a.toNat then false
    else charListLe l1 l2

def strLe (a b : String) : Bool := charListLe a.data b.data

def entryLe (a b : String × JValue) : Prop :=
  strLe (entryStr a) (entryStr b) = true

instance : DecidableRel entryLe := fun a b =>
  inferInstanceAs (Decidable (strLe (entryStr a) (entryStr b) = true))

theorem charListLe_total : ∀ l1 l2 : List Char,
    charListLe l1 l2 = true ∨ charListLe l2 l1 = true
  | [], _ => Or.inl rfl
  | _ :: _, [] => Or.inr rfl
  | a :: l1, b :: l2 => by
    rw [charListLe, charListLe]
    by_cases hab : a.toNat < b.toNat
    · left
      rw [if_pos hab]
    · by_cases hba : b.toNat < a.toNat
      · right
        rw [if_pos hba]
      · rw [if_neg hab, if_neg hba, if_neg hba, if_neg hab]
        exact charListLe_total l1 l2

theorem charListLe_trans : ∀ l1 l2 l3 : List Char,
    charListLe l1 l2 = true → charListLe l2 l3 = true → charListLe l1 l3 = true
  | [], _, _ => by
    intro _ _
    rfl
  | _ :: _, [], _ => by
    intro h _
    exact absurd h (by simp [charListLe])
  | _ :: _, _ :: _, [] => by
    intro _ h
    exact absurd h (by simp [charListLe])
  | a :: l1, b :: l2, c :: l3 => by
    intro h1 h2
    rw [charListLe] at h1 h2 ⊢
    by_cases hab : a.toNat < b.toNat <;> by_cases hbc : b.toNat < c.toNat
    · rw [if_pos (by omega : a.toNat < c.toNat)]
    · rw [if_neg hbc] at h2
      by_cases hcb : c.toNat < b.toNat
      · rw [if_pos hcb] at h2
        exact absurd h2 (by simp)
      · rw [if_pos (by omega : a.toNat < c.toNat)]
    · rw [if_neg hab] at h1
      by_cases hba : b.toNat < a.toNat
      · rw [if_pos hba] at h1
        exact absurd h1 (by simp)
      · rw [if_pos (by omega : a.toNat < c.toNat)]
    · rw [if_neg hab] at h1
      by_cases hba : b.toNat < a.toNat
      · rw [if_pos hba] at h1
        exact absurd h1 (by simp)
      · rw [if_neg hba] at h1
        rw [if_neg hbc] at h2
        by_cases hcb : c.toNat < b.toNat
        · rw [if_pos hcb] at h2
          exact absurd h2 (by simp)
        · rw [if_neg hcb] at h2
          rw [if_neg (by omega : ¬a.toNat < c.toNat),
            if_neg (by omega : ¬c.toNat < a.toNat)]
          exact charListLe_trans l1 l2 l3 h1 h2

theorem charListLe_antisymm : ∀ l1 l2 : List Char,
    charListLe l1 l2 = true → charListLe l2 l1 = true → l1 = l2
  | [], [] => fun _ _ => rfl
  | [], _ :: _ => by
    intro _ h
    exact absurd h (by simp [charListLe])
  | _ :: _, [] => by
    intro h _
    exact absurd h (by simp [charListLe])
  | a :: l1, b :: l2 => by
    intro h1 h2
    rw [charListLe] at h1 h2
    by_cases hab : a.toNat < b.toNat
    · rw [if_neg (by omega : ¬b.toNat < a.toNat), if_pos hab] at h2
      exact absurd h2 (by simp)
    · by_cases hba : b.toNat < a.toNat
      · rw [if_neg hab, if_pos hba] at h1
        exact absurd h1 (by simp)
      · rw [if_neg hab, if_neg hba] at h1
        rw [if_neg hba, if_neg hab] at h2
        have htn : a.toNat = b.toNat := by omega
        have hchar : a = b :=
          Char.eq_of_val_eq (UInt32.eq_of_val_eq (Fin.ext htn))
        rw [hchar, charListLe_antisymm l1 l2 h1 h2]

theorem strLe_antisymm (a b : String) (h1 : strLe a b = true)
    (h2 : strLe b a = true) : a = b := by
  have hd := charListLe_antisymm a.data b.data h1 h2
  cases a
  cases b
  exact congrArg String.mk hd

instance : IsTotal (String × JValue) entryLe :=
  ⟨fun a b => charListLe_total (entryStr a).data (entryStr b).data⟩

instance : IsTrans (String × JValue) entryLe :=
  ⟨fun a b c h1 h2 =>
    charListLe_trans (entryStr a).data (entryStr b).data (entryStr c).data h1 h2⟩

/-- Rendering of one sorted entry inside `JSON.stringify` of the entry array;
an `undefined` array element stringifies as `null`. -/
def jsonEntry (e : String × JValue) : String :=
  "[" ++ jsonQuote e.1 ++ "," ++
    (match e.2 with
     | .undefined => "null"
     | v => jsonStringify v) ++ "]"

def serializeEntries (l : List (String × JValue)) : String :=
  "[" ++ String.intercalate "," (l.map jsonEntry) ++ "]"

/-- Method `stableSerializeWSLIntegrations` (lines 210-212), made
exception-explicit: the `TypeError` thrown by `Object.entries` on
`null`/`undefined` becomes the `Except.error` case. -/
def stableSerializeWSLIntegrations (value : JValue) : Except String String :=
  match entriesOf value with
  | none => .error "TypeError: Cannot convert undefined or null to object"
  | some es => .ok (serializeEntries (List.insertionSort entryLe es))

/-- Validator `checkWSLIntegrations` (lines 214-229).  Both serializations
happen inside the `try`, so a thrown `TypeError` is caught locally and
reported through the error list. -/
def checkWSLIntegrations (currentValue desiredValue : JValue)
    (errors : List String) (fqname : String) : Bool × List String :=
  if !(typeofIsObject desiredValue) then
    (false, errors ++ ["Proposed field " ++ fqname ++ " should be an object, got <" ++
      jsToString desiredValue ++ ">."])
  else
    match stableSerializeWSLIntegrations currentValue with
    | .error e =>
      (false, errors ++ ["JSON-parsing error checking field " ++ fqname ++ ": " ++ e])
    | .ok sc =>
      match stableSerializeWSLIntegrations desiredValue with
      | .error e =>
        (false, errors ++ ["JSON-parsing error checking field " ++ fqname ++ ": " ++ e])
      | .ok sd =>
        if sc ≠ sd then (false, errors ++ [notSupported fqname])
        else (false, errors)

/-- Modelled from the spec: the `PathManagementStrategy` enumeration lives in
`src/integrations/pathManager`, which is not part of this repository
snapshot.  The spec requires a fixed enumeration of strategy strings exposing
a sentinel "not set" value that the validator always rejects as a target. -/
def pathManagementStrategyValues : List String := ["manual", "rcfiles", "notset"]

/-- Modelled from the spec: the sentinel `PathManagementStrategy.NotSet`. -/
def pathManagementStrategyNotSet : String := "notset"

/-- Validator `checkPathManagementStrategy` (lines 231-250). -/
def checkPathManagementStrategy (currentValue desiredValue : JValue)
    (errors : List String) (fqname : String) : Bool × List String :=
  let bad := (false, errors ++ [fqname ++ ": \"" ++ jsToString desiredValue ++
    "\" is not a valid strategy"])
  match desiredValue with
  | .str s =>
    if !(pathManagementStrategyValues.contains s) then bad
    else if s = pathManagementStrategyNotSet then bad
    else (jStrictNe desiredValue currentValue, errors)
  | _ => bad

/-!
The schema tree.  In the source the verifier is a plain object whose values
are either nested objects or bound validator functions; the walk decides
which with `typeof`, and recognizes the wildcard-map validator by function
identity (`allowedSettings[k] === this.checkWSLIntegrations`).  We embed each
stored function as a named tag and dispatch through `applyLeaf`. -/

inductive LeafV : Type where
  | checkKubernetesVersion
  | checkNumber (min : Int) (max : NumBound)
  | checkContainerEngine
  | checkUnchanged
  | checkBoolean
  | checkWSLIntegrations
  | checkString
  | checkPathManagementStrategy
deriving Repr, DecidableEq

mutual

inductive Schema : Type where
  | leaf (v : LeafV)
  | node (m : SchemaMap)
deriving Repr

inductive SchemaMap : Type where
  | nil
  | cons (k : String) (s : Schema) (rest : SchemaMap)
deriving Repr

end

def lookupS : SchemaMap → String → Option Schema
  | .nil, _ => none
  | .cons k' s rest, k => if k' = k then some s else lookupS rest k

/-- Dispatch on a stored leaf validator (line 124,
`allowedSettings[k].call(this, ...)`). -/
def applyLeaf (f : LeafV) (k8sVersions : List String)
    (currentValue desiredValue : JValue) (errors : List String)
    (fqname : String) : Bool × List String :=
  match f with
  | .checkKubernetesVersion => checkKubernetesVersion k8sVersions currentValue desiredValue errors fqname
  | .checkNumber mn mx => checkNumber mn mx currentValue desiredValue errors fqname
  | .checkContainerEngine => checkContainerEngine currentValue desiredValue errors fqname
  | .checkUnchanged => checkUnchanged currentValue desiredValue errors fqname
  | .checkBoolean => checkBoolean currentValue desiredValue errors fqname
  | .checkWSLIntegrations => checkWSLIntegrations currentValue desiredValue errors fqname
  | .checkString => checkString currentValue desiredValue errors fqname
  | .checkPathManagementStrategy => checkPathManagementStrategy currentValue desiredValue errors fqname

def SchemaMap.ofList : List (String × Schema) → SchemaMap
  | [] => .nil
  | (k, s) :: rest => .cons k s (SchemaMap.ofList rest)

/-- The memoized verifier built in `validateSettings` (lines 46-70). -/
def allowedSettings : SchemaMap := .ofList
  [("version", .leaf .checkUnchanged),
   ("kubernetes", .node (.ofList
     [("version", .leaf .checkKubernetesVersion),
      ("memoryInGB", .leaf (.checkNumber 0 .posInf)),
      ("numberCPUs", .leaf (.checkNumber 0 .posInf)),
      ("port", .leaf (.checkNumber 1 (.fin 65535))),
      ("containerEngine", .leaf .checkContainerEngine),
      ("checkForExistingKimBuilder", .leaf .checkUnchanged),
      ("enabled", .leaf .checkBoolean),
      ("WSLIntegrations", .leaf .checkWSLIntegrations),
      ("options", .node (.ofList
        [("traefik", .leaf .checkBoolean),
         ("flannel", .leaf .checkBoolean)])),
      ("suppressSudo", .leaf .checkBoolean),
      ("experimentalHostResolver", .leaf .checkBoolean)])),
   ("portForwarding", .node (.ofList
     [("includeKubernetesServices", .leaf .checkBoolean)])),
   ("images", .node (.ofList
     [("showAll", .leaf .checkBoolean),
      ("namespace", .leaf .checkString)])),
   ("telemetry", .leaf .checkBoolean),
   ("updater", .leaf .checkBoolean),
   ("debug", .leaf .checkBoolean),
   ("pathManagementStrategy", .leaf .checkPathManagementStrategy)]

mutual

/-- Method `checkProposedSettings` (lines 91-129): the recursive walk of the
proposed tree against the verifier.  `for..in` over an object enumerates its
fields in order; over `null`, `undefined`, booleans and numbers it
enumerates nothing, and over a string it enumerates its numeric indices,
none of which occurs as a schema key, so each iteration hits the
`continue` branch — for every non-object the walk therefore reports
`(false, errors)` unchanged, which is what the catch-all arm returns. -/
def checkProposedSettings (k8sVersions : List String) (m : SchemaMap)
    (currentSettings newSettings : JValue) (errors : List String)
    (pfx : String) : Bool × List String :=
  match newSettings with
  | .obj fs => checkProposedSettingsFields k8sVersions m currentSettings fs errors pfx
  | _ => (false, errors)

/-- One `for..in` pass over the proposed fields, accumulating the OR-reduced
changed flag and the appended errors. -/
def checkProposedSettingsFields (k8sVersions : List String) (m : SchemaMap)
    (currentSettings : JValue) (fs : JFields) (errors : List String)
    (pfx : String) : Bool × List String :=
  match fs with
  | .nil => (false, errors)
  | .cons k v rest =>
    let fqname := if pfx = "" then k else pfx ++ "." ++ k
    let step : Bool × List String :=
      match lookupS m k with
      | none => (false, errors)
      | some (.node m') =>
        if typeofIsObject v then
          checkProposedSettings k8sVersions m' (jGet currentSettings k) v errors fqname
        else
          (false, errors ++ ["Setting " ++ fqname ++
            " should wrap an inner object, but got <" ++ jsToString v ++ ">."])
      | some (.leaf f) =>
        if typeofIsObject v then
          if f = .checkWSLIntegrations then
            checkWSLIntegrations (jGet currentSettings k) v errors fqname
          else
            (false, errors ++ ["Setting " ++ fqname ++
              " should be a simple value, but got <" ++ jsonStringify v ++ ">."])
        else
          applyLeaf f k8sVersions (jGet currentSettings k) v errors fqname
    let restResult :=
      checkProposedSettingsFields k8sVersions m currentSettings rest step.2 pfx
    (step.1 || restResult.1, restResult.2)

end

/-!
Synonym canonicalization.  `canonicalizeKubernetesVersion` matches the
desired value against `/^(v?)(\d+\.\d+\.\d+)((?:\+k3s\d+)?)$/` and replaces
it by the core group when a leading `v` or a `+k3sN` suffix was present.
The regular expression is implemented directly: a greedy digit run is
faithful because the characters following each `\d+` group (`.`/`+`/end)
are never digits, and committing to a leading `v` is faithful because the
core must start with a digit. -/

def takeDigits : List Char → List Char × List Char
  | [] => ([], [])
  | c :: cs =>
    if c.isDigit then
      let p := takeDigits cs
      (c :: p.1, p.2)
    else ([], c :: cs)

/-- Parse `\d+\.\d+\.\d+`, returning the matched characters and the rest. -/
def parseCore (l : List Char) : Option (List Char × List Char) :=
  match takeDigits l with
  | (d1, r1) =>
    if d1 = [] then none else
    match r1 with
    | '.' :: r2 =>
      match takeDigits r2 with
      | (d2, r3) =>
        if d2 = [] then none else
        match r3 with
        | '.' :: r4 =>
          match takeDigits r4 with
          | (d3, r5) =>
            if d3 = [] then none else
            some (d1 ++ '.' :: (d2 ++ '.' :: d3), r5)
        | _ => none
    | _ => none

/-- Continuation of the version match after the optional leading `v` (whose
capture is `g1`): the core `\d+\.\d+\.\d+` followed by the optional
`(?:\+k3s\d+)?` suffix, anchored at the end of the string. -/
def parseVersionRest (g1 : String) (l : List Char) : Option (String × String × String) :=
  match parseCore l with
  | none => none
  | some (core, rest) =>
    match rest with
    | [] => some (g1, ⟨core⟩, "")
    | '+' :: 'k' :: '3' :: 's' :: r2 =>
      match takeDigits r2 with
      | (d, r3) =>
        if d = [] then none
        else if r3 = [] then some (g1, ⟨core⟩, ⟨'+' :: 'k' :: '3' :: 's' :: d⟩)
        else none
    | _ => none

/-- Full match of `^(v?)(\d+\.\d+\.\d+)((?:\+k3s\d+)?)$`, returning the three
capture groups.  Committing to a leading `v` loses no match because the core
must start with a digit. -/
def parseVersion (s : String) : Option (String × String × String) :=
  match s.data with
  | 'v' :: r => parseVersionRest "v" r
  | l => parseVersionRest "" l

/-- Canonicalizer `canonicalizeKubernetesVersion` (lines 279-287), modelled
on the value it stores back: `RegExp.exec` coerces its argument with
`String(...)` first, and only a string argument can ever match (no other
coercion contains two dots between digit runs). -/
def canonicalizeKubernetesVersion (v : JValue) : JValue :=
  match parseVersion (jsToString v) with
  | some (g1, g2, g3) => if g1 = "" && g3 = "" then v else .str g2
  | none => v

/-- Canonicalizer `canonicalizeContainerEngine` (lines 289-293). -/
def canonicalizeContainerEngine (v : JValue) : JValue :=
  if jStrictEq v (.str "docker") then .str "moby" else v

/-- Canonicalizer `canonicalizeBool` (lines 295-303). -/
def canonicalizeBool (v : JValue) : JValue :=
  if jStrictEq v (.str "true") then .bool true
  else if jStrictEq v (.str "false") then .bool false
  else v

inductive Canonicalizer : Type where
  | kubernetesVersion
  | containerEngine
  | boolString
deriving Repr, DecidableEq

def applyCanonicalizer : Canonicalizer → JValue → JValue
  | .kubernetesVersion, v => canonicalizeKubernetesVersion v
  | .containerEngine, v => canonicalizeContainerEngine v
  | .boolString, v => canonicalizeBool v

mutual

inductive SynNode : Type where
  | leaf (c : Canonicalizer)
  | node (t : SynTable)
deriving Repr

inductive SynTable : Type where
  | nil
  | cons (k : String) (n : SynNode) (rest : SynTable)
deriving Repr

end

def lookupT : SynTable → String → Option SynNode
  | .nil, _ => none
  | .cons k' n rest, k => if k' = k then some n else lookupT rest k

def synonymsOptionsTable : SynTable :=
  .cons "flannel" (.leaf .boolString) .nil

def synonymsKubernetesTable : SynTable :=
  .cons "version" (.leaf .kubernetesVersion) (
  .cons "containerEngine" (.leaf .containerEngine) (
  .cons "enabled" (.leaf .boolString) (
  .cons "options" (.node synonymsOptionsTable) .nil)))

/-- The memoized synonyms table (lines 253-260). -/
def synonymsTable : SynTable :=
  .cons "kubernetes" (.node synonymsKubernetesTable) .nil

mutual

/-- Method `canonicalizeSettings` (lines 264-277): walks the proposed tree
against the synonyms table and rewrites recognized leaves in place (modelled
as returning the rewritten tree).  The recursion is unguarded in the source;
`for..in` over a non-object enumerates no table key (string indices are
numeric, table keys are not), so non-objects are returned untouched.  The
line-268 `in` test also sees the `Object.prototype` members of the table
literal: such a proposed key calls the inherited function as a
"canonicalizer" (line 272) with arguments `(newSettings, k)`.  Those calls
either return a discarded value without mutating the proposed tree
(`toString`, `valueOf`, `hasOwnProperty`, the lookup functions, ...) or
throw before mutating anything (`__defineGetter__`/`__defineSetter__`,
whose second argument `k` is a non-callable string), and the `__proto__`
recursion (table `Object.prototype`, then `null`) likewise only discards
results, throws, or iterates nothing.  So on runs that complete, the
resulting tree is exactly this own-key model; the value-level embedding is
faithful for every completed run and the divergence (an escaping
`TypeError`) is accounted for in the exception-aware walk. -/
def canonicalizeSettings (t : SynTable) (newSettings : JValue) (pfx : String) : JValue :=
  match newSettings with
  | .obj fs => .obj (canonicalizeSettingsFields t fs pfx)
  | v => v

def canonicalizeSettingsFields (t : SynTable) (fs : JFields) (pfx : String) : JFields :=
  match fs with
  | .nil => .nil
  | .cons k v rest =>
    let fqname := if pfx = "" then k else pfx ++ "." ++ k
    let v' :=
      match lookupT t k with
      | none => v
      | some (.node t') => canonicalizeSettings t' v fqname
      | some (.leaf c) => applyCanonicalizer c v
    .cons k v' (canonicalizeSettingsFields t rest pfx)

end

/-- Method `canonicalizeSynonyms` (lines 252-262). -/
def canonicalizeSynonyms (newSettings : JValue) : JValue :=
  canonicalizeSettings synonymsTable newSettings ""

/-- Method `validateSettings` (lines 45-76): canonicalize the proposed tree,
walk it against the verifier, and report
`(needToUpdate && errors.length === 0, errors)`. -/
def validateSettings (k8sVersions : List String)
    (currentSettings newSettings : JValue) : Bool × List String :=
  let canon := canonicalizeSynonyms newSettings
  let r := checkProposedSettings k8sVersions allowedSettings currentSettings canon [] ""
  (r.1 && r.2.isEmpty, r.2)

/-!
Exception-aware variant of the walk, for the no-throw property.  Two
operations inside `checkProposedSettings` can throw in JavaScript.  First, a
property read `x[k]` on `null` or `undefined` — the walk performs such reads
only on the current tree (`currentSettings[k]`); `jGetE` models that read.
Second, and more subtly, the membership test `k in allowedSettings`
(line 104) consults the prototype chain: the verifier is a plain object
literal, so the twelve `Object.prototype` member names (`constructor`,
`hasOwnProperty`, ..., `__defineGetter__`, `__proto__`) pass the test even
though they are absent from the verifier itself, and instead of being
skipped such a key dispatches the inherited member.  The inherited members
are functions (so the walk reaches line 124 and calls them as validators)
except `__proto__`, whose value `Object.prototype` has `typeof 'object'`
(so the walk recurses into it as a verifier subtree).  `protoDispatchE`
and `checkProtoSettingsE` below transcribe the outcome of every such
dispatch; in particular `__defineGetter__`/`__defineSetter__` throw a
`TypeError` (the desired value, coming from parsed JSON, is never
callable), which is the one way an exception escapes the walk. -/

def jGetE : JValue → String → Except String JValue
  | .null, k => .error ("TypeError: Cannot read properties of null (reading " ++ k ++ ")")
  | .undefined, k => .error ("TypeError: Cannot read properties of undefined (reading " ++ k ++ ")")
  | v, k => .ok (jGet v k)

/-- The own property names of `Object.prototype`, visible through the `in`
operator on every plain-object verifier level. -/
def protoNames : List String :=
  ["constructor", "hasOwnProperty", "isPrototypeOf", "propertyIsEnumerable",
   "toLocaleString", "toString", "valueOf", "__defineGetter__",
   "__defineSetter__", "__lookupGetter__", "__lookupSetter__", "__proto__"]

/-- The own (enumerable, data) properties of the `SettingsValidator`
instance: its three class fields.  `hasOwnProperty`/`propertyIsEnumerable`
dispatched as validators consult exactly this set. -/
def validatorOwnProps : List String :=
  ["k8sVersions", "allowedSettings", "synonymsTable"]

/-- Outcome of line 124 when the "validator" is an inherited function member
of `Object.prototype`, called as `fn.call(this, currentValue, desiredValue,
errors, fqname)` with `this` the validator instance and a non-callable
(parsed-JSON scalar) desired value:
`toString`/`toLocaleString` return "[object Object]" (truthy), `valueOf`
returns the validator instance (truthy), `constructor` is `Object`, which
returns an object (truthy); `hasOwnProperty`/`propertyIsEnumerable` test
`String(currentValue)` against the validator instance fields;
`isPrototypeOf` is false for every parse-tree value;
`__lookupGetter__`/`__lookupSetter__` find an accessor on the chain only
under the name `__proto__`; `__defineGetter__`/`__defineSetter__` throw a
`TypeError` because the desired value is not callable. -/
def protoDispatchE (k : String) (currentValue desiredValue : JValue)
    (errors : List String) (_fqname : String) :
    Except String (Bool × List String) :=
  if k = "__defineGetter__" then
    .error ("TypeError: Getter must be a function: " ++ jsToString desiredValue)
  else if k = "__defineSetter__" then
    .error ("TypeError: Setter must be a function: " ++ jsToString desiredValue)
  else if k = "toString" || k = "toLocaleString" || k = "valueOf" ||
      k = "constructor" then
    .ok (true, errors)
  else if k = "hasOwnProperty" || k = "propertyIsEnumerable" then
    .ok (validatorOwnProps.contains (jsToString currentValue), errors)
  else if k = "__lookupGetter__" || k = "__lookupSetter__" then
    .ok (jsToString currentValue = "__proto__", errors)
  else
    .ok (false, errors)

/-- The walk recursing with verifier `null`
(reached through `__proto__.__proto__`): `for..in` enumerates the proposed
keys and the first one hits `k in null`, which throws; with no keys there is
no iteration and the walk returns no change. -/
def checkNullVerifierE (newSettings : JValue) (errors : List String) :
    Except String (Bool × List String) :=
  match newSettings with
  | .obj (.cons k _ _) =>
    .error ("TypeError: Cannot use 'in' operator to search for '" ++ k ++
      "' in null")
  | _ => .ok (false, errors)

mutual

/-- The walk recursing with verifier `Object.prototype` (reached through a
proposed `__proto__` key): `k in Object.prototype` holds exactly for the
own members of `Object.prototype`, whose values are the inherited functions
(dispatched through `protoDispatchE`; the current value passed along is a
prototype member function, which stringifies to neither a validator field
name nor `__proto__`, so it is modelled by `undefined`, which dispatches
identically) and the `__proto__` accessor, whose value `null` sends an
object-typed proposed value into `checkNullVerifierE`. -/
def checkProtoSettingsE (newSettings : JValue) (errors : List String)
    (pfx : String) : Except String (Bool × List String) :=
  match newSettings with
  | .obj fs => checkProtoFieldsE fs errors pfx
  | _ => .ok (false, errors)

def checkProtoFieldsE (fs : JFields) (errors : List String) (pfx : String) :
    Except String (Bool × List String) :=
  match fs with
  | .nil => .ok (false, errors)
  | .cons k v rest =>
    let fqname := if pfx = "" then k else pfx ++ "." ++ k
    let stepE : Except String (Bool × List String) :=
      if k = "__proto__" then
        if typeofIsObject v then checkNullVerifierE v errors
        else
          .ok (false, errors ++ ["Setting " ++ fqname ++
            " should wrap an inner object, but got <" ++ jsToString v ++ ">."])
      else if protoNames.contains k then
        if typeofIsObject v then
          .ok (false, errors ++ ["Setting " ++ fqname ++
            " should be a simple value, but got <" ++ jsonStringify v ++ ">."])
        else protoDispatchE k .undefined v errors fqname
      else .ok (false, errors)
    match stepE with
    | .error e => .error e
    | .ok step =>
      match checkProtoFieldsE rest step.2 pfx with
      | .error e => .error e
      | .ok restResult => .ok (step.1 || restResult.1, restResult.2)

end

mutual

def checkProposedSettingsE (k8sVersions : List String) (m : SchemaMap)
    (currentSettings newSettings : JValue) (errors : List String)
    (pfx : String) : Except String (Bool × List String) :=
  match newSettings with
  | .obj fs => checkProposedSettingsFieldsE k8sVersions m currentSettings fs errors pfx
  | _ => .ok (false, errors)

def checkProposedSettingsFieldsE (k8sVersions : List String) (m : SchemaMap)
    (currentSettings : JValue) (fs : JFields) (errors : List String)
    (pfx : String) : Except String (Bool × List String) :=
  match fs with
  | .nil => .ok (false, errors)
  | .cons k v rest =>
    let fqname := if pfx = "" then k else pfx ++ "." ++ k
    let stepE : Except String (Bool × List String) :=
      match lookupS m k with
      | none =>
        if k = "__proto__" then
          if typeofIsObject v then
            match jGetE currentSettings k with
            | .error e => .error e
            | .ok _ => checkProtoSettingsE v errors fqname
          else
            .ok (false, errors ++ ["Setting " ++ fqname ++
              " should wrap an inner object, but got <" ++ jsToString v ++ ">."])
        else if protoNames.contains k then
          if typeofIsObject v then
            .ok (false, errors ++ ["Setting " ++ fqname ++
              " should be a simple value, but got <" ++ jsonStringify v ++ ">."])
          else
            match jGetE currentSettings k with
            | .error e => .error e
            | .ok cur' => protoDispatchE k cur' v errors fqname
        else .ok (false, errors)
      | some (.node m') =>
        if typeofIsObject v then
          match jGetE currentSettings k with
          | .error e => .error e
          | .ok cur' => checkProposedSettingsE k8sVersions m' cur' v errors fqname
        else
          .ok (false, errors ++ ["Setting " ++ fqname ++
            " should wrap an inner object, but got <" ++ jsToString v ++ ">."])
      | some (.leaf f) =>
        if typeofIsObject v then
          if f = .checkWSLIntegrations then
            match jGetE currentSettings k with
            | .error e => .error e
            | .ok cur' => .ok (checkWSLIntegrations cur' v errors fqname)
          else
            .ok (false, errors ++ ["Setting " ++ fqname ++
              " should be a simple value, but got <" ++ jsonStringify v ++ ">."])
        else
          match jGetE currentSettings k with
          | .error e => .error e
          | .ok cur' => .ok (applyLeaf f k8sVersions cur' v errors fqname)
    match stepE with
    | .error e => .error e
    | .ok step =>
      match checkProposedSettingsFieldsE k8sVersions m currentSettings rest step.2 pfx with
      | .error e => .error e
      | .ok restResult => .ok (step.1 || restResult.1, restResult.2)

end

/-- True for the values whose property reads throw in JavaScript. -/
def isNothing : JValue → Bool
  | .null => true
  | .undefined => true
  | _ => false

mutual

/-- Conformance of a current settings tree to the schema shape: the tree is
an object, and every interior (branch) key of the schema is present and
itself conforming.  A full `Settings` object satisfies this; it is what the
walk needs so that no current-tree property read throws. -/
def conformsV : Schema → JValue → Bool
  | .leaf _, _ => true
  | .node m, v =>
    match v with
    | .obj _ => conformsM m v
    | _ => false

def conformsM : SchemaMap → JValue → Bool
  | .nil, _ => true
  | .cons k s rest, v => conformsV s (jGet v k) && conformsM rest v

end

mutual

/-- Removal of the proposed keys that the walk silently skips: at every level
that the walk matches against the schema, drop the keys absent from the
schema map, and recurse exactly where the walk recurses (an interior schema
node with an object-typed proposed value).  The payload of a leaf-position
value is kept whole, because the walk treats it as data, not as schema-indexed
keys. -/
def pruneS (m : SchemaMap) : JValue → JValue
  | .obj fs => .obj (pruneF m fs)
  | v => v

def pruneF (m : SchemaMap) : JFields → JFields
  | .nil => .nil
  | .cons k v rest =>
    match lookupS m k with
    | none => pruneF m rest
    | some (.node m') =>
      .cons k (if typeofIsObject v then pruneS m' v else v) (pruneF m rest)
    | some (.leaf _) => .cons k v (pruneF m rest)

end

mutual

/-- Freedom from `Object.prototype` member names: no key of the tree, at any
nesting level, is one of the twelve inherited names — the domain on which
the `in` test of the walk coincides with an own-key lookup. -/
def protoFree : JValue → Bool
  | .obj fs => protoFreeF fs
  | _ => true

def protoFreeF : JFields → Bool
  | .nil => true
  | .cons k v rest =>
    !(protoNames.contains k) && protoFree v && protoFreeF rest

end

/-- Tree position access by a dotted path. -/
def getPath (v : JValue) : List String → JValue
  | [] => v
  | k :: rest => getPath (jGet v k) rest

def keysF : JFields → List String
  | .nil => []
  | .cons k _ rest => k :: keysF rest

/-- Object keys of a tree node (the key structure of the settings tree). -/
def objKeys : JValue → List String
  | .obj fs => keysF fs
  | _ => []

/-- The four leaf positions the synonyms table rewrites. -/
def synonymPaths : List (List String) :=
  [["kubernetes", "version"],
   ["kubernetes", "containerEngine"],
   ["kubernetes", "enabled"],
   ["kubernetes", "options", "flannel"]]

/-- Decides whether `p` is a (not necessarily proper) leading segment of
`q`. -/
def leadsInto : List String → List String → Bool
  | [], _ => true
  | _ :: _, [] => false
  | a :: as_, b :: bs => a = b && leadsInto as_ bs

/-!
Claim-side predicates and the claim theorems. -/

/-- The comparison `desired ≤ max` (for the range condition as the spec
words it). -/
def leBound (d : Int) : NumBound → Bool
  | .fin m => d ≤ m
  | .posInf => true

/-- Acceptance condition of the number-range-check as the claim words it:
the desired value is numeric and `min ≤ desired ≤ max`. -/
def numberInRange (min : Int) (max : NumBound) : JValue → Bool
  | .num d => min ≤ d && leBound d max
  | _ => false

/-- C2: for every instantiation `(min, max)` of the number-range check and
every desired value, a non-numeric or out-of-range value appends exactly one
"Invalid value for ..." error and reports no change; a numeric in-range value
appends nothing and reports `current !== desired`. -/
theorem checkNumber_range_spec (min : Int) (max : NumBound) (cur des : JValue)
    (errors : List String) (fq : String) :
    checkNumber min max cur des errors fq =
      if numberInRange min max des then (jStrictNe cur des, errors)
      else (false, errors ++ [invalidSettingMessage fq des]) := by
  cases des <;> try simp [checkNumber, numberInRange]
  case num d =>
    by_cases h1 : d < min
    · cases max <;>
        simp [checkNumber, numberInRange, gtBound, leBound, h1, not_le.mpr h1]
    · have hmin : min ≤ d := not_lt.mp h1
      cases max with
      | posInf => simp [checkNumber, numberInRange, gtBound, leBound, h1, hmin]
      | fin mx =>
        by_cases h2 : mx < d
        · simp [checkNumber, numberInRange, gtBound, leBound, h1, h2, hmin, not_le.mpr h2]
        · simp [checkNumber, numberInRange, gtBound, leBound, h1, h2, hmin, not_lt.mp h2]

/-- C5: the immutable check and the wildcard-map check never report a
change, in every run, including the runs that append an error. -/
theorem checkUnchanged_and_wsl_never_change (cur des : JValue)
    (errors : List String) (fq : String) :
    (checkUnchanged cur des errors fq).1 = false ∧
    (checkWSLIntegrations cur des errors fq).1 = false := by
  refine ⟨?_, ?_⟩
  · unfold checkUnchanged
    split <;> rfl
  · unfold checkWSLIntegrations
    split
    · rfl
    · split
      · rfl
      · split
        · rfl
        · split <;> rfl

/-- C8: with current "moby" and desired "docker" the container-engine check
appends the containerd/docker/moby error and reports no change; and for
every desired value it accepts without appending an error exactly the
strings "containerd" and "moby". -/
theorem checkContainerEngine_accepts_exactly :
    (∀ (errors : List String) (fq : String),
      checkContainerEngine (.str "moby") (.str "docker") errors fq =
        (false, errors ++ ["Invalid value for " ++ fq ++
          ": <docker>; must be 'containerd', 'docker', or 'moby'"])) ∧
    (∀ (cur des : JValue) (errors : List String) (fq : String),
      (checkContainerEngine cur des errors fq).2 = errors ↔
        des = .str "containerd" ∨ des = .str "moby") := by
  refine ⟨fun errors fq => by simp [checkContainerEngine, String.append_assoc],
    fun cur des errors fq => ?_⟩
  cases des <;> simp only [checkContainerEngine]
  case str s =>
    by_cases h1 : s = "containerd"
    · simp [h1]
    · by_cases h2 : s = "moby" <;> simp [h1, h2]
  all_goals simp

/-- C9: an empty proposed tree reports no change and no error, so the
all-absent partial update is classified as "no update needed". -/
theorem validateSettings_empty_proposed (k8sVersions : List String)
    (cur : JValue) :
    validateSettings k8sVersions cur (.obj .nil) = (false, []) := rfl

/-- C1: `validateSettings` returns exactly
`(changed && errors.length === 0, errors)` from the walk of the
canonicalized proposed tree — so `ok = true` iff the walk reported a change
and the error list is empty — and in particular a type-valid no-op update
yields `ok = false` with an empty error list. -/
theorem validateSettings_ok_iff :
    (∀ (k8sVersions : List String) (cur prop : JValue),
      (((validateSettings k8sVersions cur prop).1 = true ↔
        ((checkProposedSettings k8sVersions allowedSettings cur
            (canonicalizeSynonyms prop) [] "").1 = true ∧
         (checkProposedSettings k8sVersions allowedSettings cur
            (canonicalizeSynonyms prop) [] "").2 = [])) ∧
       (validateSettings k8sVersions cur prop).2 =
         (checkProposedSettings k8sVersions allowedSettings cur
            (canonicalizeSynonyms prop) [] "").2)) ∧
    validateSettings [] (.obj (.cons "telemetry" (.bool true) .nil))
        (.obj (.cons "telemetry" (.bool true) .nil)) = (false, []) := by
  refine ⟨fun k8sVersions cur prop => ⟨?_, rfl⟩, by decide⟩
  simp [validateSettings, List.isEmpty_iff]

/-!
C3: the walk never lets an exception escape.  The exception-aware walk
agrees with the total walk whenever the current tree conforms to the schema
shape, for an arbitrary proposed tree. -/

theorem jGetE_ok (cur : JValue) (k : String) (h : isNothing cur = false) :
    jGetE cur k = .ok (jGet cur k) := by
  cases cur <;> simp [isNothing] at h ⊢ <;> rfl

theorem conformsM_lookup : (m : SchemaMap) → ∀ (v : JValue) (k : String) (s : Schema),
    conformsM m v = true → lookupS m k = some s → conformsV s (jGet v k) = true
  | .nil => by intro v k s _ hl; simp [lookupS] at hl
  | .cons k' s' rest => by
    intro v k s h hl
    rw [conformsM, Bool.and_eq_true] at h
    rw [lookupS] at hl
    by_cases hk : k' = k
    · rw [if_pos hk] at hl
      cases hl
      rw [← hk]
      exact h.1
    · rw [if_neg hk] at hl
      exact conformsM_lookup rest v k s h.2 hl

theorem conformsV_node_obj (m : SchemaMap) (v : JValue)
    (h : conformsV (.node m) v = true) :
    isNothing v = false ∧ conformsM m v = true := by
  cases v <;> simp [conformsV, isNothing] at h ⊢
  exact h

mutual

theorem checkProposedSettingsE_ok : (v : JValue) →
    ∀ (k8sVersions : List String) (m : SchemaMap) (cur : JValue)
      (errors : List String) (pfx : String),
      isNothing cur = false → conformsM m cur = true → protoFree v = true →
      checkProposedSettingsE k8sVersions m cur v errors pfx =
        .ok (checkProposedSettings k8sVersions m cur v errors pfx)
  | .obj fs => by
    intro k8sVersions m cur errors pfx hnn hc hp
    rw [checkProposedSettingsE, checkProposedSettings]
    exact checkProposedSettingsFieldsE_ok fs k8sVersions m cur errors pfx hnn hc hp
  | .bool _ => by intro _ _ _ _ _ _ _ _; rfl
  | .num _ => by intro _ _ _ _ _ _ _ _; rfl
  | .str _ => by intro _ _ _ _ _ _ _ _; rfl
  | .null => by intro _ _ _ _ _ _ _ _; rfl
  | .undefined => by intro _ _ _ _ _ _ _ _; rfl

theorem checkProposedSettingsFieldsE_ok : (fs : JFields) →
    ∀ (k8sVersions : List String) (m : SchemaMap) (cur : JValue)
      (errors : List String) (pfx : String),
      isNothing cur = false → conformsM m cur = true → protoFreeF fs = true →
      checkProposedSettingsFieldsE k8sVersions m cur fs errors pfx =
        .ok (checkProposedSettingsFields k8sVersions m cur fs errors pfx)
  | .nil => by intro _ _ _ _ _ _ _ _; rfl
  | .cons k v rest => by
    intro k8sVersions m cur errors pfx hnn hc hp
    rw [protoFreeF, Bool.and_eq_true, Bool.and_eq_true, Bool.not_eq_true'] at hp
    obtain ⟨⟨hpn, hpv⟩, hpr⟩ := hp
    have hk : ¬(k = "__proto__") := by
      intro he
      rw [he] at hpn
      exact absurd hpn (by decide)
    rw [checkProposedSettingsFieldsE, checkProposedSettingsFields]
    cases hl : lookupS m k with
    | none =>
      simp only [hl, if_neg hk, hpn, Bool.false_eq_true, if_false,
        checkProposedSettingsFieldsE_ok rest k8sVersions m cur, hnn, hc, hpr]
    | some s =>
      cases s with
      | node m' =>
        cases ho : typeofIsObject v with
        | false =>
          simp only [hl, ho, Bool.false_eq_true, if_false,
            checkProposedSettingsFieldsE_ok rest k8sVersions m cur, hnn, hc, hpr]
        | true =>
          obtain ⟨hnn', hcm'⟩ :=
            conformsV_node_obj m' (jGet cur k) (conformsM_lookup m cur k _ hc hl)
          simp only [hl, ho, if_true, jGetE_ok cur k hnn,
            checkProposedSettingsE_ok v k8sVersions m', hnn', hcm', hpv,
            checkProposedSettingsFieldsE_ok rest k8sVersions m cur, hnn, hc, hpr]
      | leaf f =>
        cases ho : typeofIsObject v with
        | true =>
          by_cases hf : f = LeafV.checkWSLIntegrations
          · simp only [hl, ho, if_true, hf, reduceIte, jGetE_ok cur k hnn,
              checkProposedSettingsFieldsE_ok rest k8sVersions m cur, hnn, hc, hpr]
          · simp only [hl, ho, if_true, hf, reduceIte,
              checkProposedSettingsFieldsE_ok rest k8sVersions m cur, hnn, hc, hpr]
        | false =>
          simp only [hl, ho, Bool.false_eq_true, if_false, jGetE_ok cur k hnn,
            checkProposedSettingsFieldsE_ok rest k8sVersions m cur, hnn, hc, hpr]

end

/-- C3 (amended): for every current tree conforming to the schema shape (as
every full settings object does) and every proposed tree free of
`Object.prototype` member names at every level, the exception-aware walk
returns `.ok` of exactly the total walk result: no exception escapes, every
proposed key is processed, and the full (changed, errors) report is
produced.  Without the proto-freedom hypothesis the claim is false: a
proposed key named `__defineGetter__` or `__defineSetter__` passes the
line-104 `in` test through the prototype chain, the walk calls the inherited
function with a non-callable desired value, and the resulting `TypeError`
escapes — see `checkProposedSettings_throws_counterexample`. -/
theorem checkProposedSettings_never_throws
    (k8sVersions : List String) (cur prop : JValue) (errors : List String)
    (pfx : String) (h : conformsV (.node allowedSettings) cur = true)
    (hp : protoFree prop = true) :
    checkProposedSettingsE k8sVersions allowedSettings cur prop errors pfx =
      .ok (checkProposedSettings k8sVersions allowedSettings cur prop errors pfx) := by
  obtain ⟨hnn, hcm⟩ := conformsV_node_obj allowedSettings cur h
  exact checkProposedSettingsE_ok prop k8sVersions allowedSettings cur errors pfx hnn hcm hp

/-- C3 counterexample to the unamended claim: with a conforming current
tree, the single nested proposed key `images.__defineGetter__` — absent
from the `images` verifier level itself but visible to `in` through the
prototype chain — makes the walk call `Object.prototype.__defineGetter__`
with the non-callable desired value `"x"`, and the `TypeError` it throws
escapes the walk instead of landing in the error list. -/
theorem checkProposedSettings_throws_counterexample :
    conformsV (.node allowedSettings)
      (.obj (.cons "kubernetes" (.obj (.cons "options" (.obj .nil) .nil)) (
        .cons "portForwarding" (.obj .nil) (
        .cons "images" (.obj .nil) .nil)))) = true ∧
    checkProposedSettingsE [] allowedSettings
      (.obj (.cons "kubernetes" (.obj (.cons "options" (.obj .nil) .nil)) (
        .cons "portForwarding" (.obj .nil) (
        .cons "images" (.obj .nil) .nil))))
      (.obj (.cons "images"
        (.obj (.cons "__defineGetter__" (.str "x") .nil)) .nil))
      [] "" =
      .error "TypeError: Getter must be a function: x" :=
  ⟨by decide, rfl⟩

/-- Witness for C3 at a concrete conforming current tree and a deliberately
ill-shaped (but proto-free) proposed tree (null subtree, object in scalar
position, scalar in object position, unknown keys). -/
theorem checkProposedSettings_never_throws_witness :
    conformsV (.node allowedSettings)
      (.obj (.cons "kubernetes" (.obj (.cons "options" (.obj .nil) .nil)) (
        .cons "portForwarding" (.obj .nil) (
        .cons "images" (.obj .nil) .nil)))) = true ∧
    protoFree
      (.obj (.cons "kubernetes" (.obj (
         .cons "enabled" (.obj .nil) (
         .cons "options" (.num 3) (
         .cons "mystery" (.str "x") .nil)))) (
       .cons "telemetry" .null (
       .cons "images" .null .nil)))) = true ∧
    checkProposedSettingsE [] allowedSettings
      (.obj (.cons "kubernetes" (.obj (.cons "options" (.obj .nil) .nil)) (
        .cons "portForwarding" (.obj .nil) (
        .cons "images" (.obj .nil) .nil))))
      (.obj (.cons "kubernetes" (.obj (
         .cons "enabled" (.obj .nil) (
         .cons "options" (.num 3) (
         .cons "mystery" (.str "x") .nil)))) (
       .cons "telemetry" .null (
       .cons "images" .null .nil))))
      [] "" =
      .ok (checkProposedSettings [] allowedSettings
        (.obj (.cons "kubernetes" (.obj (.cons "options" (.obj .nil) .nil)) (
          .cons "portForwarding" (.obj .nil) (
          .cons "images" (.obj .nil) .nil))))
        (.obj (.cons "kubernetes" (.obj (
           .cons "enabled" (.obj .nil) (
           .cons "options" (.num 3) (
           .cons "mystery" (.str "x") .nil)))) (
         .cons "telemetry" .null (
         .cons "images" .null .nil))))
        [] "") :=
  ⟨by decide, by decide,
    checkProposedSettings_never_throws [] _ _ [] "" (by decide) (by decide)⟩

/-!
C7: canonicalization is idempotent.  The key fact is that the version
canonicalizer emits the bare core `MAJOR.MINOR.PATCH`, which re-parses with
empty `v`/`+k3sN` groups and is therefore left untouched by a second pass. -/

theorem takeDigits_all : ∀ l : List Char, ((takeDigits l).1).all Char.isDigit = true
  | [] => rfl
  | c :: cs => by
    rw [takeDigits]
    by_cases hc : c.isDigit = true
    · simp [hc, takeDigits_all cs]
    · simp [hc]

theorem takeDigits_append : ∀ (d r : List Char), d.all Char.isDigit = true →
    (∀ c cs, r = c :: cs → c.isDigit = false) → takeDigits (d ++ r) = (d, r)
  | [], r => by
    intro _ hr
    cases r with
    | nil => rfl
    | cons c cs =>
      rw [List.nil_append, takeDigits, hr c cs rfl]
      simp
  | c :: d', r => by
    intro hd hr
    rw [List.all_cons, Bool.and_eq_true] at hd
    rw [List.cons_append, takeDigits, hd.1, if_pos rfl,
      takeDigits_append d' r hd.2 hr]

theorem takeDigits_exact (d : List Char) (hd : d.all Char.isDigit = true) :
    takeDigits d = (d, []) := by
  have h := takeDigits_append d [] hd (by intro c cs hcc; cases hcc)
  simpa using h

theorem parseCore_of_parts (d1 d2 d3 : List Char)
    (h1 : d1 ≠ []) (h2 : d2 ≠ []) (h3 : d3 ≠ [])
    (hd1 : d1.all Char.isDigit = true) (hd2 : d2.all Char.isDigit = true)
    (hd3 : d3.all Char.isDigit = true) :
    parseCore (d1 ++ '.' :: (d2 ++ '.' :: d3)) =
      some (d1 ++ '.' :: (d2 ++ '.' :: d3), []) := by
  have hdot : ∀ (r : List Char) (c : Char) (cs : List Char),
      ('.' :: r : List Char) = c :: cs → c.isDigit = false := by
    intro r c cs hcc
    injection hcc with hc _
    subst hc
    decide
  unfold parseCore
  rw [takeDigits_append d1 ('.' :: (d2 ++ '.' :: d3)) hd1 (hdot _)]
  simp only [h1, reduceIte]
  rw [takeDigits_append d2 ('.' :: d3) hd2 (hdot _)]
  simp only [h2, reduceIte]
  rw [takeDigits_exact d3 hd3]
  simp [h3]

theorem parseCore_parts (l core rest : List Char)
    (h : parseCore l = some (core, rest)) :
    ∃ d1 d2 d3 : List Char, d1 ≠ [] ∧ d2 ≠ [] ∧ d3 ≠ [] ∧
      d1.all Char.isDigit = true ∧ d2.all Char.isDigit = true ∧
      d3.all Char.isDigit = true ∧
      core = d1 ++ '.' :: (d2 ++ '.' :: d3) := by
  unfold parseCore at h
  rcases hp1 : takeDigits l with ⟨d1, r1⟩
  rw [hp1] at h
  dsimp only at h
  have hall1 : d1.all Char.isDigit = true := by
    have := takeDigits_all l
    rw [hp1] at this
    exact this
  by_cases h1 : d1 = []
  · rw [if_pos h1] at h
    exact absurd h (by simp)
  · rw [if_neg h1] at h
    split at h
    rotate_left
    · exact absurd h (by simp)
    · rename_i r2
      rcases hp2 : takeDigits r2 with ⟨d2, r3⟩
      rw [hp2] at h
      dsimp only at h
      have hall2 : d2.all Char.isDigit = true := by
        have := takeDigits_all r2
        rw [hp2] at this
        exact this
      by_cases h2 : d2 = []
      · rw [if_pos h2] at h
        exact absurd h (by simp)
      · rw [if_neg h2] at h
        split at h
        rotate_left
        · exact absurd h (by simp)
        · rename_i r4
          rcases hp3 : takeDigits r4 with ⟨d3, r5⟩
          rw [hp3] at h
          dsimp only at h
          have hall3 : d3.all Char.isDigit = true := by
            have := takeDigits_all r4
            rw [hp3] at this
            exact this
          by_cases h3 : d3 = []
          · rw [if_pos h3] at h
            exact absurd h (by simp)
          · rw [if_neg h3] at h
            rw [Option.some.injEq, Prod.mk.injEq] at h
            exact ⟨d1, d2, d3, h1, h2, h3, hall1, hall2, hall3, h.1.symm⟩

theorem parseVersionRest_core (g1 G1 G2 G3 : String) (l : List Char)
    (h : parseVersionRest g1 l = some (G1, G2, G3)) :
    ∃ rest, parseCore l = some (G2.data, rest) := by
  unfold parseVersionRest at h
  split at h
  · exact absurd h (by simp)
  case h_2 core rest hpc =>
    refine ⟨rest, ?_⟩
    split at h
    · rw [Option.some.injEq, Prod.mk.injEq, Prod.mk.injEq] at h
      rw [hpc, ← h.2.1]
    case h_2 r2 =>
      rcases hpd : takeDigits r2 with ⟨d, r3⟩
      rw [hpd] at h
      dsimp only at h
      by_cases hd : d = []
      · rw [if_pos hd] at h
        exact absurd h (by simp)
      · rw [if_neg hd] at h
        by_cases hr3 : r3 = []
        · rw [if_pos hr3, Option.some.injEq, Prod.mk.injEq, Prod.mk.injEq] at h
          rw [hpc, ← h.2.1]
        · rw [if_neg hr3] at h
          exact absurd h (by simp)
    case h_3 => exact absurd h (by simp)

theorem parseVersion_roundtrip (s G1 G2 G3 : String)
    (h : parseVersion s = some (G1, G2, G3)) :
    parseVersion G2 = some ("", G2, "") := by
  have hrest : ∃ g1 l, parseVersionRest g1 l = some (G1, G2, G3) := by
    unfold parseVersion at h
    split at h
    · exact ⟨"v", _, h⟩
    · exact ⟨"", _, h⟩
  obtain ⟨g1, l, hr⟩ := hrest
  obtain ⟨rest, hpc⟩ := parseVersionRest_core g1 G1 G2 G3 l hr
  obtain ⟨d1, d2, d3, h1, h2, h3, hall1, hall2, hall3, hcore⟩ :=
    parseCore_parts l G2.data rest hpc
  have hself : parseCore G2.data = some (G2.data, []) := by
    rw [hcore]
    exact parseCore_of_parts d1 d2 d3 h1 h2 h3 hall1 hall2 hall3
  have hmk : (⟨G2.data⟩ : String) = G2 := rfl
  have hrest2 : parseVersionRest "" G2.data = some ("", G2, "") := by
    unfold parseVersionRest
    rw [hself]
  cases hd1 : d1 with
  | nil => exact absurd hd1 h1
  | cons c d1' =>
    have hcd : c.isDigit = true := by
      rw [hd1, List.all_cons, Bool.and_eq_true] at hall1
      exact hall1.1
    have hcv : c ≠ 'v' := by
      intro hceq
      rw [hceq] at hcd
      exact absurd hcd (by decide)
    have hdata : G2.data = c :: (d1' ++ '.' :: (d2 ++ '.' :: d3)) := by
      rw [hcore, hd1]
      rfl
    unfold parseVersion
    rw [hdata]
    split
    case h_1 r heq =>
      exact absurd (List.head_eq_of_cons_eq heq.symm).symm hcv
    case h_2 hne =>
      rw [← hdata]
      exact hrest2

theorem canonicalizeKubernetesVersion_idem (v : JValue) :
    canonicalizeKubernetesVersion (canonicalizeKubernetesVersion v) =
      canonicalizeKubernetesVersion v := by
  cases hp : parseVersion (jsToString v) with
  | none =>
    have hv : canonicalizeKubernetesVersion v = v := by
      unfold canonicalizeKubernetesVersion
      rw [hp]
    rw [hv, hv]
  | some t =>
    obtain ⟨g1, g2, g3⟩ := t
    by_cases hg : g1 = "" ∧ g3 = ""
    · have hv : canonicalizeKubernetesVersion v = v := by
        unfold canonicalizeKubernetesVersion
        rw [hp]
        simp [hg.1, hg.2]
      rw [hv, hv]
    · have hv : canonicalizeKubernetesVersion v = .str g2 := by
        unfold canonicalizeKubernetesVersion
        rw [hp]
        have : ¬(g1 = "" && g3 = "") = true := by
          simp only [Bool.and_eq_true, decide_eq_true_eq]
          exact fun hc => hg ⟨hc.1, hc.2⟩
        simp [this]
      have hround := parseVersion_roundtrip (jsToString v) g1 g2 g3 hp
      rw [hv]
      unfold canonicalizeKubernetesVersion
      have hjs : jsToString (.str g2) = g2 := rfl
      rw [hjs, hround]
      simp

theorem canonicalizeContainerEngine_idem (v : JValue) :
    canonicalizeContainerEngine (canonicalizeContainerEngine v) =
      canonicalizeContainerEngine v := by
  unfold canonicalizeContainerEngine
  by_cases hc : jStrictEq v (.str "docker") = true
  · rw [if_pos hc]
    rfl
  · rw [if_neg hc, if_neg hc]

theorem canonicalizeBool_idem (v : JValue) :
    canonicalizeBool (canonicalizeBool v) = canonicalizeBool v := by
  unfold canonicalizeBool
  by_cases h1 : jStrictEq v (.str "true") = true
  · rw [if_pos h1]
    rfl
  · rw [if_neg h1]
    by_cases h2 : jStrictEq v (.str "false") = true
    · rw [if_pos h2]
      rfl
    · rw [if_neg h2, if_neg h1, if_neg h2]

theorem applyCanonicalizer_idem (c : Canonicalizer) (v : JValue) :
    applyCanonicalizer c (applyCanonicalizer c v) = applyCanonicalizer c v := by
  cases c with
  | kubernetesVersion => exact canonicalizeKubernetesVersion_idem v
  | containerEngine => exact canonicalizeContainerEngine_idem v
  | boolString => exact canonicalizeBool_idem v

mutual

theorem canonicalizeSettings_idem : (v : JValue) →
    ∀ (t : SynTable) (p1 p2 : String),
      canonicalizeSettings t (canonicalizeSettings t v p1) p2 =
        canonicalizeSettings t v p1
  | .obj fs => by
    intro t p1 p2
    rw [canonicalizeSettings, canonicalizeSettings,
      canonicalizeSettingsFields_idem fs t p1 p2]
  | .bool _ => fun _ _ _ => rfl
  | .num _ => fun _ _ _ => rfl
  | .str _ => fun _ _ _ => rfl
  | .null => fun _ _ _ => rfl
  | .undefined => fun _ _ _ => rfl

theorem canonicalizeSettingsFields_idem : (fs : JFields) →
    ∀ (t : SynTable) (p1 p2 : String),
      canonicalizeSettingsFields t (canonicalizeSettingsFields t fs p1) p2 =
        canonicalizeSettingsFields t fs p1
  | .nil => fun _ _ _ => rfl
  | .cons k v rest => by
    intro t p1 p2
    rw [canonicalizeSettingsFields, canonicalizeSettingsFields]
    cases hl : lookupT t k with
    | none =>
      simp only [hl, canonicalizeSettingsFields_idem rest t p1 p2]
    | some n =>
      cases n with
      | node t' =>
        simp only [hl, canonicalizeSettings_idem v t',
          canonicalizeSettingsFields_idem rest t p1 p2]
      | leaf c =>
        simp only [hl, applyCanonicalizer_idem c v,
          canonicalizeSettingsFields_idem rest t p1 p2]

end

/-- C7: canonicalization is idempotent — a second application of
`canonicalizeSynonyms` changes nothing, because each leaf canonicalizer maps
every value to one of its own fixed points on the first application. -/
theorem canonicalizeSynonyms_idempotent :
    (∀ v : JValue,
      canonicalizeSynonyms (canonicalizeSynonyms v) = canonicalizeSynonyms v) ∧
    (∀ (c : Canonicalizer) (v : JValue),
      applyCanonicalizer c (applyCanonicalizer c v) = applyCanonicalizer c v) :=
  ⟨fun v => canonicalizeSettings_idem v synonymsTable "" "",
   applyCanonicalizer_idem⟩

/-!
C6: order independence of the wildcard-map comparison.  The default sort
comparator keys each entry `[k, v]` by the string `k + "," + String(v)`, so
two maps with the same entry set in different insertion orders serialize
equally precisely when no two distinct entries share that comparison key
(ties are kept in insertion order by the stable sort, and insertion orders
differ).  A comma inside a key or a value can make the keys of distinct
entries collide, which refutes the claim as stated; with pairwise distinct
comparison keys the sorted lists — and hence the serializations — agree. -/

theorem sorted_perm_nodup_eq : ∀ l1 l2 : List (String × JValue),
    List.Perm l1 l2 → l1.Sorted entryLe → l2.Sorted entryLe →
    (l1.map entryStr).Nodup → l1 = l2
  | [], l2 => by
    intro hp _ _ _
    exact hp.nil_eq
  | a :: t1, l2 => by
    intro hp hs1 hs2 hnd
    cases l2 with
    | nil => exact absurd hp.symm (by simp)
    | cons b t2 =>
      have hab : a = b := by
        have hbmem : b ∈ a :: t1 := hp.mem_iff.mpr (List.mem_cons_self b t2)
        have hamem : a ∈ b :: t2 := hp.mem_iff.mp (List.mem_cons_self a t1)
        rcases List.mem_cons.mp hbmem with hba | hbt
        · exact hba.symm
        rcases List.mem_cons.mp hamem with hab | hat
        · exact hab
        have h1 : entryLe a b := List.rel_of_sorted_cons hs1 b hbt
        have h2 : entryLe b a := List.rel_of_sorted_cons hs2 a hat
        have heq : entryStr a = entryStr b := strLe_antisymm _ _ h1 h2
        have hmem : entryStr b ∈ t1.map entryStr :=
          List.mem_map_of_mem entryStr hbt
        rw [← heq] at hmem
        rw [List.map_cons, List.nodup_cons] at hnd
        exact absurd hmem hnd.1
      subst hab
      have hpt : List.Perm t1 t2 := hp.cons_inv
      have hnd' : (t1.map entryStr).Nodup := by
        rw [List.map_cons, List.nodup_cons] at hnd
        exact hnd.2
      rw [sorted_perm_nodup_eq t1 t2 hpt hs1.of_cons hs2.of_cons hnd']

/-- C6 (amended): for two wildcard maps holding the same set of (key, value)
entries, possibly in different key-insertion orders, whose entry comparison
keys `String([k, v])` — the comma-join of the pair, rendering a `null` or
`undefined` value as the empty string — are pairwise distinct, in
particular whenever the keys are distinct and no key or value contains a
comma, the sorted-entry serializations compare equal and the check appends
no error. -/
theorem checkWSLIntegrations_order_independent
    (f1 f2 : JFields) (errors : List String) (fq : String)
    (hperm : List.Perm (fieldsToList f1) (fieldsToList f2))
    (hnodup : ((fieldsToList f1).map entryStr).Nodup) :
    checkWSLIntegrations (.obj f1) (.obj f2) errors fq = (false, errors) := by
  have hsort : List.insertionSort entryLe (fieldsToList f1) =
      List.insertionSort entryLe (fieldsToList f2) := by
    apply sorted_perm_nodup_eq
    · exact ((List.perm_insertionSort entryLe (fieldsToList f1)).trans hperm).trans
        (List.perm_insertionSort entryLe (fieldsToList f2)).symm
    · exact List.sorted_insertionSort entryLe (fieldsToList f1)
    · exact List.sorted_insertionSort entryLe (fieldsToList f2)
    · exact (((List.perm_insertionSort entryLe (fieldsToList f1)).map
        entryStr).nodup_iff).mpr hnodup
  have hser : stableSerializeWSLIntegrations (.obj f1) =
      stableSerializeWSLIntegrations (.obj f2) := by
    unfold stableSerializeWSLIntegrations
    have h1 : entriesOf (.obj f1) = some (fieldsToList f1) := rfl
    have h2 : entriesOf (.obj f2) = some (fieldsToList f2) := rfl
    rw [h1, h2]
    dsimp only
    rw [hsort]
  unfold checkWSLIntegrations
  rw [if_neg (by simp [typeofIsObject])]
  cases hs : stableSerializeWSLIntegrations (.obj f1) with
  | error e =>
    have hok : stableSerializeWSLIntegrations (JValue.obj f1) =
        .ok (serializeEntries (List.insertionSort entryLe (fieldsToList f1))) := rfl
    rw [hok] at hs
    exact absurd hs (by simp)
  | ok sc =>
    rw [← hser, hs]
    simp

/-- Witness for the amended C6 at a concrete pair of maps with the same
entries in swapped insertion order and comma-free comparison keys. -/
theorem checkWSLIntegrations_order_independent_witness :
    List.Perm (fieldsToList (.cons "x" (.bool true) (.cons "b" (.str "y") .nil)))
      (fieldsToList (.cons "b" (.str "y") (.cons "x" (.bool true) .nil))) ∧
    ((fieldsToList (.cons "x" (.bool true) (.cons "b" (.str "y") .nil))).map
      entryStr).Nodup ∧
    checkWSLIntegrations
      (.obj (.cons "x" (.bool true) (.cons "b" (.str "y") .nil)))
      (.obj (.cons "b" (.str "y") (.cons "x" (.bool true) .nil)))
      [] "kubernetes.WSLIntegrations" = (false, []) :=
  ⟨List.Perm.swap _ _ [], by decide,
   checkWSLIntegrations_order_independent _ _ [] "kubernetes.WSLIntegrations"
     (List.Perm.swap _ _ []) (by decide)⟩

/-- C6 counterexample: the two maps `{"a": "b,c", "a,b": "c"}` and
`{"a,b": "c", "a": "b,c"}` hold the same set of entries in different
insertion orders, yet both entries share the comparison key `a,b,c`, the
stable sort keeps each insertion order, the serializations differ, and the
check reports the difference as an unsupported change. -/
theorem checkWSLIntegrations_insertion_order_counterexample :
    List.Perm (fieldsToList (.cons "a" (.str "b,c") (.cons "a,b" (.str "c") .nil)))
      (fieldsToList (.cons "a,b" (.str "c") (.cons "a" (.str "b,c") .nil))) ∧
    stableSerializeWSLIntegrations
      (.obj (.cons "a" (.str "b,c") (.cons "a,b" (.str "c") .nil))) =
      .ok "[[\"a\",\"b,c\"],[\"a,b\",\"c\"]]" ∧
    stableSerializeWSLIntegrations
      (.obj (.cons "a,b" (.str "c") (.cons "a" (.str "b,c") .nil))) =
      .ok "[[\"a,b\",\"c\"],[\"a\",\"b,c\"]]" ∧
    ("[[\"a\",\"b,c\"],[\"a,b\",\"c\"]]" : String) ≠
      "[[\"a,b\",\"c\"],[\"a\",\"b,c\"]]" ∧
    checkWSLIntegrations
      (.obj (.cons "a" (.str "b,c") (.cons "a,b" (.str "c") .nil)))
      (.obj (.cons "a,b" (.str "c") (.cons "a" (.str "b,c") .nil)))
      [] "kubernetes.WSLIntegrations" =
      (false, [notSupported "kubernetes.WSLIntegrations"]) :=
  ⟨List.Perm.swap _ _ [], rfl, rfl, by decide, by decide⟩

/-!
C4: unknown keys are ignored.  `pruneS` removes exactly the keys the walk
skips through its `continue` branch; we show the walk result is unchanged
under pruning and that pruning commutes with canonicalization, so the full
`validateSettings` result is identical. -/

theorem pruneS_typeof (m : SchemaMap) (v : JValue) :
    typeofIsObject (pruneS m v) = typeofIsObject v := by
  cases v <;> rfl

theorem canonicalizeSettings_typeof (t : SynTable) (v : JValue) (pfx : String) :
    typeofIsObject (canonicalizeSettings t v pfx) = typeofIsObject v := by
  cases v <;> rfl

theorem applyCanonicalizer_obj (c : Canonicalizer) (fs : JFields) :
    applyCanonicalizer c (.obj fs) = .obj fs := by
  cases c <;> rfl

theorem applyCanonicalizer_null (c : Canonicalizer) :
    applyCanonicalizer c .null = .null := by
  cases c <;> rfl

theorem canonicalizeKubernetesVersion_cases (v : JValue) :
    canonicalizeKubernetesVersion v = v ∨
      ∃ s, canonicalizeKubernetesVersion v = .str s := by
  unfold canonicalizeKubernetesVersion
  split
  · split
    · exact Or.inl rfl
    · exact Or.inr ⟨_, rfl⟩
  · exact Or.inl rfl

theorem applyCanonicalizer_scalar (c : Canonicalizer) (v : JValue) :
    applyCanonicalizer c v = v ∨ (∃ s, applyCanonicalizer c v = .str s) ∨
      (∃ b, applyCanonicalizer c v = .bool b) := by
  cases c with
  | kubernetesVersion =>
    rcases canonicalizeKubernetesVersion_cases v with h | ⟨s, h⟩
    · exact Or.inl h
    · exact Or.inr (Or.inl ⟨s, h⟩)
  | containerEngine =>
    by_cases h : jStrictEq v (.str "docker") = true
    · refine Or.inr (Or.inl ⟨"moby", ?_⟩)
      show canonicalizeContainerEngine v = _
      unfold canonicalizeContainerEngine
      rw [if_pos h]
    · refine Or.inl ?_
      show canonicalizeContainerEngine v = v
      unfold canonicalizeContainerEngine
      rw [if_neg h]
  | boolString =>
    by_cases h1 : jStrictEq v (.str "true") = true
    · refine Or.inr (Or.inr ⟨true, ?_⟩)
      show canonicalizeBool v = _
      unfold canonicalizeBool
      rw [if_pos h1]
    · by_cases h2 : jStrictEq v (.str "false") = true
      · refine Or.inr (Or.inr ⟨false, ?_⟩)
        show canonicalizeBool v = _
        unfold canonicalizeBool
        rw [if_neg h1, if_pos h2]
      · refine Or.inl ?_
        show canonicalizeBool v = v
        unfold canonicalizeBool
        rw [if_neg h1, if_neg h2]

theorem applyCanonicalizer_typeof (c : Canonicalizer) (v : JValue) :
    typeofIsObject (applyCanonicalizer c v) = typeofIsObject v := by
  cases v with
  | obj fs => rw [applyCanonicalizer_obj]
  | null => rw [applyCanonicalizer_null]
  | bool b =>
    rcases applyCanonicalizer_scalar c (.bool b) with h | ⟨s, h⟩ | ⟨b', h⟩ <;>
      rw [h] <;> rfl
  | num n =>
    rcases applyCanonicalizer_scalar c (.num n) with h | ⟨s, h⟩ | ⟨b', h⟩ <;>
      rw [h] <;> rfl
  | str s0 =>
    rcases applyCanonicalizer_scalar c (.str s0) with h | ⟨s, h⟩ | ⟨b', h⟩ <;>
      rw [h] <;> rfl
  | undefined =>
    rcases applyCanonicalizer_scalar c .undefined with h | ⟨s, h⟩ | ⟨b', h⟩ <;>
      rw [h] <;> rfl

mutual

theorem checkProposedSettings_prune : (v : JValue) →
    ∀ (k8sVersions : List String) (m : SchemaMap) (cur : JValue)
      (errors : List String) (pfx : String),
      checkProposedSettings k8sVersions m cur (pruneS m v) errors pfx =
        checkProposedSettings k8sVersions m cur v errors pfx
  | .obj fs => by
    intro k8sVersions m cur errors pfx
    rw [pruneS, checkProposedSettings, checkProposedSettings]
    exact checkProposedSettingsFields_prune fs k8sVersions m cur errors pfx
  | .bool _ => fun _ _ _ _ _ => rfl
  | .num _ => fun _ _ _ _ _ => rfl
  | .str _ => fun _ _ _ _ _ => rfl
  | .null => fun _ _ _ _ _ => rfl
  | .undefined => fun _ _ _ _ _ => rfl

theorem checkProposedSettingsFields_prune : (fs : JFields) →
    ∀ (k8sVersions : List String) (m : SchemaMap) (cur : JValue)
      (errors : List String) (pfx : String),
      checkProposedSettingsFields k8sVersions m cur (pruneF m fs) errors pfx =
        checkProposedSettingsFields k8sVersions m cur fs errors pfx
  | .nil => fun _ _ _ _ _ => rfl
  | .cons k v rest => by
    intro k8sVersions m cur errors pfx
    rw [pruneF]
    cases hl : lookupS m k with
    | none =>
      rw [checkProposedSettingsFields]
      simp only [hl]
      rw [checkProposedSettingsFields_prune rest k8sVersions m cur errors pfx]
      simp
    | some s =>
      cases s with
      | node m' =>
        cases ho : typeofIsObject v with
        | true =>
          rw [checkProposedSettingsFields, checkProposedSettingsFields]
          simp only [hl, ho, if_true, pruneS_typeof,
            checkProposedSettings_prune v,
            checkProposedSettingsFields_prune rest k8sVersions m cur]
        | false =>
          rw [checkProposedSettingsFields, checkProposedSettingsFields]
          simp only [hl, ho, Bool.false_eq_true, if_false,
            checkProposedSettingsFields_prune rest k8sVersions m cur]
      | leaf f =>
        rw [checkProposedSettingsFields, checkProposedSettingsFields]
        simp only [hl,
          checkProposedSettingsFields_prune rest k8sVersions m cur]

end

mutual

theorem canonicalizeSettings_pruneS_comm : (v : JValue) →
    ∀ (t : SynTable) (m : SchemaMap) (pfx : String),
      canonicalizeSettings t (pruneS m v) pfx =
        pruneS m (canonicalizeSettings t v pfx)
  | .obj fs => by
    intro t m pfx
    rw [pruneS, canonicalizeSettings, canonicalizeSettings, pruneS,
      canonicalizeSettingsFields_pruneF_comm fs t m pfx]
  | .bool _ => fun _ _ _ => rfl
  | .num _ => fun _ _ _ => rfl
  | .str _ => fun _ _ _ => rfl
  | .null => fun _ _ _ => rfl
  | .undefined => fun _ _ _ => rfl

theorem canonicalizeSettingsFields_pruneF_comm : (fs : JFields) →
    ∀ (t : SynTable) (m : SchemaMap) (pfx : String),
      canonicalizeSettingsFields t (pruneF m fs) pfx =
        pruneF m (canonicalizeSettingsFields t fs pfx)
  | .nil => fun _ _ _ => rfl
  | .cons k v rest => by
    intro t m pfx
    rw [pruneF, canonicalizeSettingsFields]
    cases hl : lookupS m k with
    | none =>
      simp only [hl]
      rw [canonicalizeSettingsFields_pruneF_comm rest t m pfx, pruneF]
      simp only [hl]
    | some s =>
      cases s with
      | leaf f =>
        simp only [hl]
        rw [canonicalizeSettingsFields, pruneF]
        simp only [hl]
        rw [canonicalizeSettingsFields_pruneF_comm rest t m pfx]
      | node m' =>
        simp only [hl]
        rw [canonicalizeSettingsFields, pruneF]
        simp only [hl]
        rw [canonicalizeSettingsFields_pruneF_comm rest t m pfx]
        cases ht : lookupT t k with
        | none => simp only [ht]
        | some n =>
          cases n with
          | node t' =>
            simp only [ht]
            cases ho : typeofIsObject v with
            | true =>
              simp only [reduceIte, canonicalizeSettings_typeof, ho, if_true,
                canonicalizeSettings_pruneS_comm v t' m']
            | false =>
              simp only [Bool.false_eq_true, if_false,
                canonicalizeSettings_typeof, ho]
          | leaf c =>
            simp only [ht]
            cases ho : typeofIsObject v with
            | true =>
              cases v with
              | obj fs' =>
                simp only [reduceIte, typeofIsObject, pruneS,
                  applyCanonicalizer_obj]
              | null =>
                simp only [reduceIte, typeofIsObject, pruneS,
                  applyCanonicalizer_null]
              | bool b => exact absurd ho (by simp [typeofIsObject])
              | num n => exact absurd ho (by simp [typeofIsObject])
              | str s0 => exact absurd ho (by simp [typeofIsObject])
              | undefined => exact absurd ho (by simp [typeofIsObject])
            | false =>
              have hto : typeofIsObject (applyCanonicalizer c v) = false := by
                rw [applyCanonicalizer_typeof, ho]
              have hpv : pruneS m' v = v := by
                cases v <;> first
                  | rfl
                  | exact absurd ho (by simp [typeofIsObject])
              have hpc : pruneS m' (applyCanonicalizer c v) =
                  applyCanonicalizer c v := by
                rcases applyCanonicalizer_scalar c v with h | ⟨s, h⟩ | ⟨b, h⟩ <;>
                  rw [h]
                · exact hpv
                · rfl
                · rfl
              simp only [Bool.false_eq_true, if_false, hto, hpc]

end

mutual

/-- Pruning keeps keys, so it preserves freedom from prototype member
names. -/
theorem protoFree_pruneS : (v : JValue) → ∀ (m : SchemaMap),
    protoFree v = true → protoFree (pruneS m v) = true
  | .obj fs => fun m hp => protoFreeF_pruneF fs m hp
  | .bool _ => fun _ h => h
  | .num _ => fun _ h => h
  | .str _ => fun _ h => h
  | .null => fun _ h => h
  | .undefined => fun _ h => h

theorem protoFreeF_pruneF : (fs : JFields) → ∀ (m : SchemaMap),
    protoFreeF fs = true → protoFreeF (pruneF m fs) = true
  | .nil => fun _ h => h
  | .cons k v rest => by
    intro m hp
    rw [protoFreeF, Bool.and_eq_true, Bool.and_eq_true] at hp
    obtain ⟨⟨hpn, hpv⟩, hpr⟩ := hp
    rw [pruneF]
    cases hl : lookupS m k with
    | none => exact protoFreeF_pruneF rest m hpr
    | some s =>
      cases s with
      | node m' =>
        rw [protoFreeF, Bool.and_eq_true, Bool.and_eq_true]
        refine ⟨⟨hpn, ?_⟩, protoFreeF_pruneF rest m hpr⟩
        cases ho : typeofIsObject v with
        | true =>
          simp only [reduceIte]
          exact protoFree_pruneS v m' hpv
        | false =>
          simp only [Bool.false_eq_true, if_false]
          exact hpv
      | leaf f =>
        rw [protoFreeF, Bool.and_eq_true, Bool.and_eq_true]
        exact ⟨⟨hpn, hpv⟩, protoFreeF_pruneF rest m hpr⟩

end

/-- C4 (amended): keys of a proto-free proposed tree that are absent from
the schema at the level the walk consults it (the `continue` branch)
produce no error and contribute nothing to the changed flag: with a
conforming current tree, the exception-aware walk — and hence
`validateSettings` — is identical on the proposed tree and on the tree with
all such unknown keys removed.  The proto-freedom restriction is necessary:
a proposed key named after an `Object.prototype` member (e.g. `toString`)
is absent from the schema yet is not skipped, because the line-104 `in`
test sees it through the prototype chain — see
`validateSettings_unknown_keys_counterexample`. -/
theorem validateSettings_ignores_unknown_keys (k8sVersions : List String)
    (cur prop : JValue)
    (hc : conformsV (.node allowedSettings) cur = true)
    (hp : protoFree prop = true) :
    checkProposedSettingsE k8sVersions allowedSettings cur
        (pruneS allowedSettings prop) [] "" =
      checkProposedSettingsE k8sVersions allowedSettings cur prop [] "" ∧
    validateSettings k8sVersions cur (pruneS allowedSettings prop) =
      validateSettings k8sVersions cur prop := by
  obtain ⟨hnn, hcm⟩ := conformsV_node_obj allowedSettings cur hc
  constructor
  · rw [checkProposedSettingsE_ok prop k8sVersions allowedSettings cur [] ""
        hnn hcm hp,
      checkProposedSettingsE_ok (pruneS allowedSettings prop) k8sVersions
        allowedSettings cur [] "" hnn hcm
        (protoFree_pruneS prop allowedSettings hp),
      checkProposedSettings_prune prop k8sVersions allowedSettings cur [] ""]
  · unfold validateSettings canonicalizeSynonyms
    dsimp only
    rw [canonicalizeSettings_pruneS_comm prop synonymsTable allowedSettings "",
      checkProposedSettings_prune (canonicalizeSettings synonymsTable prop "")]

/-- C4 counterexample to the unamended claim: the key `toString` is absent
from the schema (so pruning removes it), yet on the proposed tree whose
single key `toString` maps to `"x"` the walk does not skip it — the `in` test sees
`Object.prototype.toString`, the inherited function is called as a
validator and returns the truthy string "[object Object]" — so the walk
reports a change where the pruned tree reports none: the results differ. -/
theorem validateSettings_unknown_keys_counterexample :
    lookupS allowedSettings "toString" = none ∧
    pruneS allowedSettings (.obj (.cons "toString" (.str "x") .nil)) =
      .obj .nil ∧
    checkProposedSettingsE [] allowedSettings
      (.obj (.cons "kubernetes" (.obj (.cons "options" (.obj .nil) .nil)) (
        .cons "portForwarding" (.obj .nil) (
        .cons "images" (.obj .nil) .nil))))
      (.obj (.cons "toString" (.str "x") .nil)) [] "" = .ok (true, []) ∧
    checkProposedSettingsE [] allowedSettings
      (.obj (.cons "kubernetes" (.obj (.cons "options" (.obj .nil) .nil)) (
        .cons "portForwarding" (.obj .nil) (
        .cons "images" (.obj .nil) .nil))))
      (.obj .nil) [] "" = .ok (false, []) :=
  ⟨rfl, rfl, rfl, rfl⟩

/-- Witness for C4 at a concrete conforming current tree and a proto-free
proposed tree carrying an unknown key. -/
theorem validateSettings_ignores_unknown_keys_witness :
    conformsV (.node allowedSettings)
      (.obj (.cons "kubernetes" (.obj (.cons "options" (.obj .nil) .nil)) (
        .cons "portForwarding" (.obj .nil) (
        .cons "images" (.obj .nil) .nil)))) = true ∧
    protoFree
      (.obj (.cons "telemetry" (.bool true) (
        .cons "mystery" (.str "x") .nil))) = true ∧
    (checkProposedSettingsE [] allowedSettings
        (.obj (.cons "kubernetes" (.obj (.cons "options" (.obj .nil) .nil)) (
          .cons "portForwarding" (.obj .nil) (
          .cons "images" (.obj .nil) .nil))))
        (pruneS allowedSettings
          (.obj (.cons "telemetry" (.bool true) (
            .cons "mystery" (.str "x") .nil)))) [] "" =
      checkProposedSettingsE [] allowedSettings
        (.obj (.cons "kubernetes" (.obj (.cons "options" (.obj .nil) .nil)) (
          .cons "portForwarding" (.obj .nil) (
          .cons "images" (.obj .nil) .nil))))
        (.obj (.cons "telemetry" (.bool true) (
          .cons "mystery" (.str "x") .nil))) [] "" ∧
     validateSettings [] (.obj (.cons "kubernetes" (.obj (
          .cons "options" (.obj .nil) .nil)) (
        .cons "portForwarding" (.obj .nil) (
        .cons "images" (.obj .nil) .nil))))
        (pruneS allowedSettings
          (.obj (.cons "telemetry" (.bool true) (
            .cons "mystery" (.str "x") .nil)))) =
      validateSettings [] (.obj (.cons "kubernetes" (.obj (
          .cons "options" (.obj .nil) .nil)) (
        .cons "portForwarding" (.obj .nil) (
        .cons "images" (.obj .nil) .nil))))
        (.obj (.cons "telemetry" (.bool true) (
          .cons "mystery" (.str "x") .nil)))) :=
  ⟨by decide, by decide,
    validateSettings_ignores_unknown_keys [] _ _ (by decide) (by decide)⟩

/-!
C10: canonicalization preserves the key structure everywhere and changes
values only at the four synonym leaf positions. -/

theorem applyCanonicalizer_undefined (c : Canonicalizer) :
    applyCanonicalizer c .undefined = .undefined := by
  cases c <;> rfl

/-- The rewrite canonicalization applies at one key: nothing for unknown
keys, recursion for interior synonym nodes, the leaf canonicalizer at
leaves. -/
def canonStep (t : SynTable) (k : String) (val : JValue) : JValue :=
  match lookupT t k with
  | none => val
  | some (.node t') => canonicalizeSettings t' val ""
  | some (.leaf c) => applyCanonicalizer c val

mutual

theorem canonicalizeSettings_pfx_irrel : (v : JValue) →
    ∀ (t : SynTable) (p1 p2 : String),
      canonicalizeSettings t v p1 = canonicalizeSettings t v p2
  | .obj fs => by
    intro t p1 p2
    rw [canonicalizeSettings, canonicalizeSettings,
      canonicalizeSettingsFields_pfx_irrel fs t p1 p2]
  | .bool _ => fun _ _ _ => rfl
  | .num _ => fun _ _ _ => rfl
  | .str _ => fun _ _ _ => rfl
  | .null => fun _ _ _ => rfl
  | .undefined => fun _ _ _ => rfl

theorem canonicalizeSettingsFields_pfx_irrel : (fs : JFields) →
    ∀ (t : SynTable) (p1 p2 : String),
      canonicalizeSettingsFields t fs p1 = canonicalizeSettingsFields t fs p2
  | .nil => fun _ _ _ => rfl
  | .cons k v rest => by
    intro t p1 p2
    rw [canonicalizeSettingsFields, canonicalizeSettingsFields]
    cases ht : lookupT t k with
    | none =>
      simp only [ht, canonicalizeSettingsFields_pfx_irrel rest t p1 p2]
    | some n =>
      cases n with
      | node t' =>
        simp only [ht, canonicalizeSettingsFields_pfx_irrel rest t p1 p2,
          canonicalizeSettings_pfx_irrel v t'
            (if p1 = "" then k else p1 ++ "." ++ k)
            (if p2 = "" then k else p2 ++ "." ++ k)]
      | leaf c =>
        simp only [ht, canonicalizeSettingsFields_pfx_irrel rest t p1 p2]

end

theorem canonStep_undefined (t : SynTable) (k : String) :
    canonStep t k .undefined = .undefined := by
  unfold canonStep
  cases ht : lookupT t k with
  | none => rfl
  | some n =>
    cases n with
    | node t' => rfl
    | leaf c => exact applyCanonicalizer_undefined c

theorem jGetF_canonF : ∀ (fs : JFields) (t : SynTable) (pfx k : String),
    jGetF (canonicalizeSettingsFields t fs pfx) k = canonStep t k (jGetF fs k)
  | .nil => by
    intro t pfx k
    exact (canonStep_undefined t k).symm
  | .cons k' v rest => by
    intro t pfx k
    rw [canonicalizeSettingsFields, jGetF, jGetF]
    by_cases hk : k' = k
    · rw [if_pos hk, if_pos hk]
      subst hk
      unfold canonStep
      cases ht : lookupT t k' with
      | none => simp only [ht]
      | some n =>
        cases n with
        | node t' =>
          simp only [ht]
          exact canonicalizeSettings_pfx_irrel v t' _ ""
        | leaf c => simp only [ht]
    · rw [if_neg hk, if_neg hk]
      exact jGetF_canonF rest t pfx k

theorem jGet_canonS (t : SynTable) (v : JValue) (pfx k : String) :
    jGet (canonicalizeSettings t v pfx) k = canonStep t k (jGet v k) := by
  cases v with
  | obj fs => exact jGetF_canonF fs t pfx k
  | bool b => exact (canonStep_undefined t k).symm
  | num n => exact (canonStep_undefined t k).symm
  | str s => exact (canonStep_undefined t k).symm
  | null => exact (canonStep_undefined t k).symm
  | undefined => exact (canonStep_undefined t k).symm

theorem jGet_applyCanonicalizer (c : Canonicalizer) (v : JValue) (k : String) :
    jGet (applyCanonicalizer c v) k = jGet v k := by
  cases v with
  | obj fs => rw [applyCanonicalizer_obj]
  | null => rw [applyCanonicalizer_null]
  | bool b =>
    rcases applyCanonicalizer_scalar c (.bool b) with h | ⟨s, h⟩ | ⟨b', h⟩ <;>
      rw [h] <;> rfl
  | num n =>
    rcases applyCanonicalizer_scalar c (.num n) with h | ⟨s, h⟩ | ⟨b', h⟩ <;>
      rw [h] <;> rfl
  | str s0 =>
    rcases applyCanonicalizer_scalar c (.str s0) with h | ⟨s, h⟩ | ⟨b', h⟩ <;>
      rw [h] <;> rfl
  | undefined =>
    rcases applyCanonicalizer_scalar c .undefined with h | ⟨s, h⟩ | ⟨b', h⟩ <;>
      rw [h] <;> rfl

theorem getPath_applyCanonicalizer_cons (c : Canonicalizer) (v : JValue)
    (k : String) (r : List String) :
    getPath (applyCanonicalizer c v) (k :: r) = getPath v (k :: r) := by
  rw [getPath, getPath, jGet_applyCanonicalizer]

theorem objKeys_applyCanonicalizer (c : Canonicalizer) (v : JValue) :
    objKeys (applyCanonicalizer c v) = objKeys v := by
  cases v with
  | obj fs => rw [applyCanonicalizer_obj]
  | null => rw [applyCanonicalizer_null]
  | bool b =>
    rcases applyCanonicalizer_scalar c (.bool b) with h | ⟨s, h⟩ | ⟨b', h⟩ <;>
      rw [h] <;> rfl
  | num n =>
    rcases applyCanonicalizer_scalar c (.num n) with h | ⟨s, h⟩ | ⟨b', h⟩ <;>
      rw [h] <;> rfl
  | str s0 =>
    rcases applyCanonicalizer_scalar c (.str s0) with h | ⟨s, h⟩ | ⟨b', h⟩ <;>
      rw [h] <;> rfl
  | undefined =>
    rcases applyCanonicalizer_scalar c .undefined with h | ⟨s, h⟩ | ⟨b', h⟩ <;>
      rw [h] <;> rfl

theorem keysF_canonF : ∀ (fs : JFields) (t : SynTable) (pfx : String),
    keysF (canonicalizeSettingsFields t fs pfx) = keysF fs
  | .nil => fun _ _ => rfl
  | .cons k v rest => by
    intro t pfx
    rw [canonicalizeSettingsFields, keysF, keysF, keysF_canonF rest t pfx]

theorem objKeys_canonS (t : SynTable) (v : JValue) (pfx : String) :
    objKeys (canonicalizeSettings t v pfx) = objKeys v := by
  cases v with
  | obj fs =>
    rw [canonicalizeSettings]
    exact keysF_canonF fs t pfx
  | bool b => rfl
  | num n => rfl
  | str s => rfl
  | null => rfl
  | undefined => rfl

theorem getPath_applyCanonicalizer_objKeys (p : List String)
    (c : Canonicalizer) (v : JValue) :
    objKeys (getPath (applyCanonicalizer c v) p) = objKeys (getPath v p) := by
  cases p with
  | nil => exact objKeys_applyCanonicalizer c v
  | cons k r => rw [getPath_applyCanonicalizer_cons]

theorem getPath_canonS_objKeys : ∀ (p : List String) (t : SynTable)
    (v : JValue) (pfx : String),
    objKeys (getPath (canonicalizeSettings t v pfx) p) =
      objKeys (getPath v p)
  | [] => fun t v pfx => objKeys_canonS t v pfx
  | k :: rest => by
    intro t v pfx
    rw [getPath, getPath, jGet_canonS]
    unfold canonStep
    cases ht : lookupT t k with
    | none => rfl
    | some n =>
      cases n with
      | node t' => exact getPath_canonS_objKeys rest t' (jGet v k) ""
      | leaf c => exact getPath_applyCanonicalizer_objKeys rest c (jGet v k)

theorem getPath_canonOptions (v : JValue) (p : List String) (pfx : String)
    (hf : leadsInto p ["flannel"] = false) :
    getPath (canonicalizeSettings synonymsOptionsTable v pfx) p =
      getPath v p := by
  cases p with
  | nil => exact absurd hf (by simp [leadsInto])
  | cons k r =>
    rw [getPath, getPath, jGet_canonS]
    unfold canonStep
    by_cases hk : k = "flannel"
    · subst hk
      have hr : r ≠ [] := by
        intro hre
        subst hre
        simp [leadsInto] at hf
      rw [show lookupT synonymsOptionsTable "flannel" =
        some (.leaf .boolString) from rfl]
      cases r with
      | nil => exact absurd rfl hr
      | cons k2 r2 => exact getPath_applyCanonicalizer_cons _ _ k2 r2
    · have hnone : lookupT synonymsOptionsTable k = none := by
        have hk' : ¬("flannel" = k) := fun he => hk he.symm
        simp [synonymsOptionsTable, lookupT, hk']
      rw [hnone]

theorem getPath_canonKubernetes (v : JValue) (p : List String) (pfx : String)
    (h1 : leadsInto p ["version"] = false)
    (h2 : leadsInto p ["containerEngine"] = false)
    (h3 : leadsInto p ["enabled"] = false)
    (h4 : leadsInto p ["options", "flannel"] = false) :
    getPath (canonicalizeSettings synonymsKubernetesTable v pfx) p =
      getPath v p := by
  cases p with
  | nil => exact absurd h1 (by simp [leadsInto])
  | cons k r =>
    rw [getPath, getPath, jGet_canonS]
    unfold canonStep
    by_cases hv : k = "version"
    · subst hv
      have hr : r ≠ [] := by
        intro hre
        subst hre
        simp [leadsInto] at h1
      rw [show lookupT synonymsKubernetesTable "version" =
        some (.leaf .kubernetesVersion) from rfl]
      cases r with
      | nil => exact absurd rfl hr
      | cons k2 r2 => exact getPath_applyCanonicalizer_cons _ _ k2 r2
    · by_cases hc : k = "containerEngine"
      · subst hc
        have hr : r ≠ [] := by
          intro hre
          subst hre
          simp [leadsInto] at h2
        rw [show lookupT synonymsKubernetesTable "containerEngine" =
          some (.leaf .containerEngine) from rfl]
        cases r with
        | nil => exact absurd rfl hr
        | cons k2 r2 => exact getPath_applyCanonicalizer_cons _ _ k2 r2
      · by_cases he : k = "enabled"
        · subst he
          have hr : r ≠ [] := by
            intro hre
            subst hre
            simp [leadsInto] at h3
          rw [show lookupT synonymsKubernetesTable "enabled" =
            some (.leaf .boolString) from rfl]
          cases r with
          | nil => exact absurd rfl hr
          | cons k2 r2 => exact getPath_applyCanonicalizer_cons _ _ k2 r2
        · by_cases ho : k = "options"
          · subst ho
            have hopt : leadsInto r ["flannel"] = false := by
              simpa [leadsInto] using h4
            rw [show lookupT synonymsKubernetesTable "options" =
              some (.node synonymsOptionsTable) from rfl]
            exact getPath_canonOptions (jGet v "options") r "" hopt
          · have hnone : lookupT synonymsKubernetesTable k = none := by
              have hv' : ¬("version" = k) := fun heq => hv heq.symm
              have hc' : ¬("containerEngine" = k) := fun heq => hc heq.symm
              have he' : ¬("enabled" = k) := fun heq => he heq.symm
              have ho' : ¬("options" = k) := fun heq => ho heq.symm
              simp [synonymsKubernetesTable, lookupT, hv', hc', he', ho']
            rw [hnone]

/-- C10: `canonicalizeSynonyms` never adds or removes keys — the key
structure at every tree position is preserved — and every position that is
not a leading segment of one of the four synonym leaf paths
(kubernetes.version, kubernetes.containerEngine, kubernetes.enabled,
kubernetes.options.flannel) holds exactly its pre-call value. -/
theorem canonicalizeSynonyms_frame (v : JValue) (p : List String) :
    objKeys (getPath (canonicalizeSynonyms v) p) = objKeys (getPath v p) ∧
    (synonymPaths.all (fun q => !(leadsInto p q)) = true →
      getPath (canonicalizeSynonyms v) p = getPath v p) := by
  constructor
  · exact getPath_canonS_objKeys p synonymsTable v ""
  · intro hall
    cases p with
    | nil => exact absurd hall (by simp [synonymPaths, leadsInto])
    | cons k r =>
      rw [canonicalizeSynonyms, getPath, getPath, jGet_canonS]
      unfold canonStep
      by_cases hk : k = "kubernetes"
      · subst hk
        simp only [synonymPaths, List.all_cons, List.all_nil,
          Bool.and_eq_true, Bool.not_eq_true'] at hall
        obtain ⟨ha, hb, hc, hd, -⟩ := hall
        rw [show lookupT synonymsTable "kubernetes" =
          some (.node synonymsKubernetesTable) from rfl]
        exact getPath_canonKubernetes (jGet v "kubernetes") r ""
          (by simpa [leadsInto] using ha) (by simpa [leadsInto] using hb)
          (by simpa [leadsInto] using hc) (by simpa [leadsInto] using hd)
      · have hnone : lookupT synonymsTable k = none := by
          have hk' : ¬("kubernetes" = k) := fun he => hk he.symm
          simp [synonymsTable, lookupT, hk']
        rw [hnone]

/-- Witness for C10 at a concrete tree and the non-synonym position
`kubernetes.extra`. -/
theorem canonicalizeSynonyms_frame_witness :
    synonymPaths.all
      (fun q => !(leadsInto ["kubernetes", "extra"] q)) = true ∧
    getPath (canonicalizeSynonyms (.obj (.cons "kubernetes" (.obj (
        .cons "version" (.str "v1.2.3") (
        .cons "extra" (.num 7) .nil))) .nil)))
      ["kubernetes", "extra"] =
    getPath (.obj (.cons "kubernetes" (.obj (
        .cons "version" (.str "v1.2.3") (
        .cons "extra" (.num 7) .nil))) .nil))
      ["kubernetes", "extra"] :=
  ⟨by decide,
   (canonicalizeSynonyms_frame (.obj (.cons "kubernetes" (.obj (
       .cons "version" (.str "v1.2.3") (
       .cons "extra" (.num 7) .nil))) .nil))
     ["kubernetes", "extra"]).2 (by decide)⟩
